import Mathlib

/-!
Shallow embedding of the mecha-dwarf binary decoder (src/leb.rs, src/macho.rs,
src/dwarf.rs) and proofs about it.

Conventions of the embedding:
* Byte images are `List Nat`, each element standing for one `u8` (so a
  well-formed image has all elements `< 256`; theorems that quantify over
  arbitrary images add that hypothesis where it matters).
* Machine integers are `Nat` (for `u8/u16/u32/u64` values and bit patterns)
  and `Int` (for `i64` values), with explicit `% 2 ^ 64` where the Rust code
  can wrap.  Shifts of 64-bit words mask the shift amount (`% 64`) and drop
  overflowing bits, the semantics of Rust release builds.
* Fallible Rust code returns `Result<_, String>` (or `Result<_, leb::Error>`).
  The embedding returns `Except Err _` where `Err` has one structured
  constructor per distinct error construction site of the source; the
  distinguished constructor `Err.panicked` models a Rust panic (slice index
  out of range, a failing `try_into().unwrap()`, or an `unwrap` of an `Err`).
* Rust loops whose progress depends on decoded data are modelled with a fuel
  parameter; the wrappers pass fuel that dominates the recursion depth (each
  level of the recursion consumes at least one byte of the input, or recurses
  into a strictly shorter suffix), so `Err.fuelExhausted` is unreachable from
  the wrappers.
-/

/-- Decode failures of the embedded decoder.  Each constructor corresponds to
one error construction site in the Rust source; `panicked` stands for a Rust
panic (not a recoverable `Err`). -/
inductive Err where
  /-- A Rust panic: out-of-range slice index, failing `try_into().unwrap()`,
  or `unwrap()` of an error value. -/
  | panicked
  /-- `leb::Error::LastByteHasContinueBit`, rendered by the source as
  "last byte in LEB has continue bit set"; the spec calls it `TruncatedLEB`. -/
  | truncatedLEB
  /-- macho.rs: "arch is NN-bit, but magic number is ...". -/
  | magicMismatch (is64 : Bool) (magic : Nat)
  /-- macho.rs: "bad cpu type: ...". -/
  | badCpuType (t : Nat)
  /-- macho.rs: "bad cpu subtype: ...". -/
  | badCpuSubtype (s : Nat)
  /-- macho.rs: "bad file type: ...". -/
  | badFileType (t : Nat)
  /-- macho.rs: "ran out of bytes reading load command". -/
  | ranOutOfBytesLoadCommand
  /-- macho.rs: the `map_err` on `std::str::from_utf8` of a segment name. -/
  | badSegname
  /-- macho.rs: "BuildCommand is ...B, but should be ...B. possible corruption". -/
  | badBuildCommandSize (size expected : Nat)
  /-- macho.rs: "expected loads to be ...B, but instead found ...B". -/
  | loadsSizeMismatch (expected found : Nat)
  /-- dwarf.rs: "missing __debug_abbrev section". -/
  | missingDebugAbbrev
  /-- dwarf.rs: "haven't parsed __debug_abbrev yet". -/
  | abbrevNotParsed
  /-- dwarf.rs: "found no abbrev matching code: ...". -/
  | noAbbrevMatchingCode (code : Nat)
  /-- dwarf.rs: "bad DIE tag ...". -/
  | badDieTag (v : Nat)
  /-- dwarf.rs: "bad DW_CHILDREN value, ...". -/
  | badChildrenFlag (x : Nat)
  /-- Fuel ran out in a fuelled loop; unreachable from the wrappers. -/
  | fuelExhausted
  deriving DecidableEq, Repr

/-- Rust `&bytes[a..b]`: the slice, or a panic when the range is out of
bounds (`a > b` or `b > bytes.len()`). -/
def rSlice (bs : List Nat) (a b : Nat) : Except Err (List Nat) :=
  if a ≤ b ∧ b ≤ bs.length then .ok ((bs.drop a).take (b - a)) else .error .panicked

/-- Rust `&bytes[a..]`: the suffix, or a panic when `a > bytes.len()`. -/
def rSliceFrom (bs : List Nat) (a : Nat) : Except Err (List Nat) :=
  if a ≤ bs.length then .ok (bs.drop a) else .error .panicked

/-- Rust `bytes[i]`: the byte, or a panic when out of range. -/
def rIndex (bs : List Nat) (i : Nat) : Except Err Nat :=
  match bs.get? i with
  | some b => .ok b
  | none => .error .panicked

/-- Little-endian value of a byte list: models `uNN::from_ne_bytes` on the
little-endian targets the source supports. -/
def leNat : List Nat → Nat
  | [] => 0
  | b :: rest => b + 256 * leNat rest

/-- Rust `u16::from_ne_bytes(bs[a..a+2].try_into().unwrap())`. -/
def leU16at (bs : List Nat) (a : Nat) : Except Err Nat := do
  let s ← rSlice bs a (a + 2)
  .ok (leNat s)

/-- Rust `u32::from_ne_bytes(bs[a..a+4].try_into().unwrap())`. -/
def leU32at (bs : List Nat) (a : Nat) : Except Err Nat := do
  let s ← rSlice bs a (a + 4)
  .ok (leNat s)

/-- Rust `u64::from_ne_bytes(bs[a..a+8].try_into().unwrap())`. -/
def leU64at (bs : List Nat) (a : Nat) : Except Err Nat := do
  let s ← rSlice bs a (a + 8)
  .ok (leNat s)

namespace leb

/-- `leb::uleb128_encode`.  The loop body computes
`byte = (n & 0x7f) | 0x80`, shifts `n` right by 7, clears the continue bit
when the shifted value is zero, and stops in that case. -/
def uleb128_encode (n : Nat) : List Nat :=
  if _h : n >>> 7 = 0 then [((n &&& 0x7f) ||| 0x80) &&& 0x7f]
  else ((n &&& 0x7f) ||| 0x80) :: uleb128_encode (n >>> 7)
  termination_by n
  decreasing_by
    simp only [Nat.shiftRight_eq_div_pow] at *
    omega

/-- The `for (i, b) in bytes.iter().enumerate()` loop of
`leb::uleb128_decode`, carrying the accumulator `val`, the current `shift`
and the current index `i`.  `val |= byte << shift` on `u64` masks the shift
amount and drops overflowing bits (release-build semantics). -/
def ulebDecodeAux : List Nat → Nat → Nat → Nat → Except Err (Nat × Nat)
  | [], _, _, _ => .error .truncatedLEB
  | b :: rest, val, shift, i =>
    let val' := val ||| ((b &&& 0x7f) <<< (shift % 64) % 2 ^ 64)
    if b &&& 0x80 = 0 then .ok (val', i + 1)
    else ulebDecodeAux rest val' (shift + 7) (i + 1)

/-- `leb::uleb128_decode`. -/
def uleb128_decode (bytes : List Nat) : Except Err (Nat × Nat) :=
  ulebDecodeAux bytes 0 0 0

/-- `leb::ileb128_encode`.  `byte = 0x7f & (n as u8)`; `n >>= 7` is an
arithmetic shift of `i64`, i.e. flooring division by 128; the loop stops when
the remaining value is 0 with the payload sign bit clear, or −1 with it set,
and otherwise sets the continue bit. -/
def ileb128_encode (n : Int) : List Nat :=
  if _h : (n.fdiv 128 = 0 ∧ ((n % 256).toNat &&& 0x7f) &&& 0x40 = 0) ∨
          (n.fdiv 128 = -1 ∧ ((n % 256).toNat &&& 0x7f) &&& 0x40 ≠ 0)
  then [(n % 256).toNat &&& 0x7f]
  else (((n % 256).toNat &&& 0x7f) ||| 0x80) :: ileb128_encode (n.fdiv 128)
  termination_by n.natAbs
  decreasing_by
    rw [Int.fdiv_eq_ediv n (by norm_num)] at _h ⊢
    push_neg at _h
    have h256 : (0:Int) ≤ n % 256 := Int.emod_nonneg n (by norm_num)
    have h256' : n % 256 < 256 := Int.emod_lt_of_pos n (by norm_num)
    have hand : (n % 256).toNat &&& 0x7f = (n % 256).toNat % 128 :=
      Nat.and_pow_two_sub_one_eq_mod _ 7
    -- `byte &&& 0x40` is zero exactly when the low 7 bits of n are < 64
    have h40 : ∀ b : Nat, b < 128 → (b &&& 0x40 = 0 ↔ b < 64) := by decide
    rw [hand] at _h
    have hb : (n % 256).toNat % 128 < 128 := Nat.mod_lt _ (by norm_num)
    have h40' := h40 _ hb
    have hcast : ((n % 256).toNat : Int) = n % 256 := Int.toNat_of_nonneg h256
    rcases _h with ⟨h1, h2⟩
    omega

/-- The byte-consuming loop of `leb::ileb128_decode`, carrying the
accumulator `result` (as a 64-bit two's-complement pattern), the `shift`, the
current index `i`, and the `last_i`/`last_byte` trackers of the source.
Returns the state at loop exit: `(result, shift, last_i, last_byte)`. -/
def ilebLoop : List Nat → Nat → Nat → Nat → Nat → Nat → Nat × Nat × Nat × Nat
  | [], result, shift, _, last_i, last_byte => (result, shift, last_i, last_byte)
  | b :: rest, result, shift, i, _, _ =>
    let result' := result ||| ((b &&& 0x7f) <<< (shift % 64) % 2 ^ 64)
    if b &&& 0x80 = 0 then (result', shift + 7, i, b)
    else ilebLoop rest result' (shift + 7) (i + 1) i b

/-- Reinterpret a 64-bit pattern as an `i64` value. -/
def toInt64 (x : Nat) : Int :=
  if x < 2 ^ 63 then (x : Int) else (x : Int) - 2 ^ 64

/-- `leb::ileb128_decode`.  After the loop: error when the last byte read has
the continue bit set (note the trackers start at `(0, 0)`, so the empty input
reaches the `Ok` path); otherwise sign-extend with `result |= -(1 << shift)`
when `shift < 64` and the sign bit of the last payload byte is set.  The
two's-complement pattern of `-(1 << shift)` is `2 ^ 64 - (1 <<< shift)` (for
`shift = 63` Rust's negation of `i64::MIN` wraps to itself in release
builds). -/
def ileb128_decode (bytes : List Nat) : Except Err (Int × Nat) :=
  let st := ilebLoop bytes 0 0 0 0 0
  let result := st.1
  let shift := st.2.1
  let last_i := st.2.2.1
  let last_byte := st.2.2.2
  if last_byte &&& 0x80 ≠ 0 then .error .truncatedLEB
  else
    let result := if shift < 64 ∧ last_byte &&& 0x40 ≠ 0
      then result ||| (2 ^ 64 - (1 <<< shift))
      else result
    .ok (toInt64 result, last_i + 1)

end leb

section LebLemmas

open leb

/-- Bits below `s` and a value shifted up by `s` occupy disjoint positions,
so their `or` is their sum. -/
theorem lor_shl_eq_add (a b s : Nat) (h : a < 2 ^ s) :
    a ||| b <<< s = a + b * 2 ^ s := by
  apply Nat.eq_of_testBit_eq
  intro i
  rw [Nat.testBit_lor, Nat.testBit_shiftLeft,
    show a + b * 2 ^ s = 2 ^ s * b + a by ring,
    Nat.testBit_mul_pow_two_add b h i]
  rcases lt_or_ge i s with hi | hi
  · have h1 : ¬ (i ≥ s) := by omega
    simp [h1, hi]
  · have h2 : ¬ (i < s) := by omega
    have h3 : a.testBit i = false := Nat.testBit_lt_two_pow (by
      calc a < 2 ^ s := h
        _ ≤ 2 ^ i := Nat.pow_le_pow_right (by norm_num) hi)
    simp [hi, h2, h3]

set_option maxRecDepth 4096 in
theorem and_high_bit : ∀ b : Nat, b < 256 → (b &&& 128 = 0 ↔ b < 128) := by
  decide

/-- `uleb128_encode` unfolded to arithmetic form. -/
theorem uleb128_encode_unfold (n : Nat) :
    uleb128_encode n =
      if n / 128 = 0 then [n % 128]
      else (n % 128 + 128) :: uleb128_encode (n / 128) := by
  have hsr : n >>> 7 = n / 128 := by simp [Nat.shiftRight_eq_div_pow]
  have hand : n &&& 0x7f = n % 128 := Nat.and_pow_two_sub_one_eq_mod n 7
  have hor : n % 128 ||| 0x80 = n % 128 + 128 := by
    have := lor_shl_eq_add (n % 128) 1 7 (Nat.mod_lt _ (by norm_num))
    simpa using this
  have hand2 : (n % 128 + 128) &&& 0x7f = n % 128 := by
    have : (n % 128 + 128) &&& 0x7f = (n % 128 + 128) % 128 :=
      Nat.and_pow_two_sub_one_eq_mod _ 7
    omega
  rw [uleb128_encode, hsr, hand, hor, hand2]
  split <;> rfl

theorem uleb128_encode_length_pos (n : Nat) : 0 < (uleb128_encode n).length := by
  rw [uleb128_encode_unfold]
  split <;> simp

/-- Invariant of the decode loop on an encoder output: with `shift ≤ 63`,
an accumulator below `2 ^ shift` and a remaining value that fits in the
remaining 64-bit window, the loop returns the combined value and consumes the
whole encoding. -/
theorem ulebDecodeAux_encode (n : Nat) : ∀ val shift i, shift ≤ 63 →
    val < 2 ^ shift → n < 2 ^ (64 - shift) →
    ulebDecodeAux (uleb128_encode n) val shift i =
      .ok (val + n * 2 ^ shift, i + (uleb128_encode n).length) := by
  induction n using Nat.strong_induction_on with
  | _ n IH =>
    intro val shift i hs hv hn
    rw [uleb128_encode_unfold]
    by_cases h0 : n / 128 = 0
    · -- final byte: high bit clear, value below 128
      have hn128 : n < 128 := by omega
      have hmod : n % 128 = n := Nat.mod_eq_of_lt hn128
      have hshift : shift % 64 = shift := Nat.mod_eq_of_lt (by omega)
      have hand : n &&& 0x7f = n := by
        rw [Nat.and_pow_two_sub_one_eq_mod n 7]; omega
      have hhi : n &&& 0x80 = 0 := (and_high_bit n (by omega)).mpr hn128
      have hlt : n <<< shift < 2 ^ 64 := by
        rw [Nat.shiftLeft_eq]
        calc n * 2 ^ shift < 2 ^ (64 - shift) * 2 ^ shift :=
              (Nat.mul_lt_mul_right (Nat.two_pow_pos shift)).mpr hn
          _ = 2 ^ 64 := by rw [← Nat.pow_add]; congr 1; omega
      simp only [h0, if_true, hmod, ulebDecodeAux, hand, hshift,
        Nat.mod_eq_of_lt hlt, hhi, if_pos rfl, List.length_singleton]
      rw [lor_shl_eq_add val n shift hv]
    · -- continue byte: high bit set, recurse on n / 128
      have hge : 128 ≤ n := by
        rcases Nat.lt_or_ge n 128 with h | h
        · exact absurd (Nat.div_eq_of_lt h) h0
        · exact h
      have hd : (2:Nat) ^ 7 < 2 ^ (64 - shift) := by
        have h128 : (128:Nat) < 2 ^ (64 - shift) := by omega
        simpa using h128
      have hs8 : 7 < 64 - shift :=
        (Nat.pow_lt_pow_iff_right (by norm_num)).mp hd
      have hs56 : shift ≤ 56 := by omega
      have hb : n % 128 + 128 < 256 := by
        have h1 : n % 128 < 128 := Nat.mod_lt _ (by norm_num)
        omega
      have hand : (n % 128 + 128) &&& 0x7f = n % 128 := by
        have : (n % 128 + 128) &&& 0x7f = (n % 128 + 128) % 128 :=
          Nat.and_pow_two_sub_one_eq_mod _ 7
        omega
      have hhi : ¬ ((n % 128 + 128) &&& 0x80 = 0) := by
        rw [and_high_bit _ hb]; omega
      have hshift : shift % 64 = shift := Nat.mod_eq_of_lt (by omega)
      have hlt : (n % 128) <<< shift < 2 ^ 64 := by
        rw [Nat.shiftLeft_eq]
        calc (n % 128) * 2 ^ shift < 128 * 2 ^ shift :=
              (Nat.mul_lt_mul_right (Nat.two_pow_pos shift)).mpr
                (Nat.mod_lt _ (by norm_num))
          _ = 2 ^ (shift + 7) := by rw [Nat.pow_add]; ring
          _ ≤ 2 ^ 64 := Nat.pow_le_pow_right (by norm_num) (by omega)
      have hval' : val + (n % 128) * 2 ^ shift < 2 ^ (shift + 7) := by
        have h1 : n % 128 < 128 := Nat.mod_lt _ (by norm_num)
        have h2 : (n % 128) * 2 ^ shift ≤ 127 * 2 ^ shift :=
          Nat.mul_le_mul_right _ (by omega)
        calc val + (n % 128) * 2 ^ shift < 2 ^ shift + 127 * 2 ^ shift := by omega
          _ = 2 ^ (shift + 7) := by rw [Nat.pow_add]; ring
      have hdiv : n / 128 < 2 ^ (64 - (shift + 7)) := by
        rw [Nat.div_lt_iff_lt_mul (by norm_num)]
        calc n < 2 ^ (64 - shift) := hn
          _ = 2 ^ (64 - (shift + 7)) * 128 := by
            rw [show (128:Nat) = 2 ^ 7 by norm_num, ← Nat.pow_add]
            congr 1; omega
      simp only [h0, if_false, ulebDecodeAux, hand, hshift,
        Nat.mod_eq_of_lt hlt, hhi, if_neg hhi, List.length_cons]
      rw [lor_shl_eq_add val (n % 128) shift hv,
        IH (n / 128) (by omega) _ (shift + 7) (i + 1) (by omega) hval' hdiv]
      congr 2
      · have : n % 128 + 128 * (n / 128) = n := by omega
        calc val + (n % 128) * 2 ^ shift + n / 128 * 2 ^ (shift + 7)
            = val + (n % 128 + 128 * (n / 128)) * 2 ^ shift := by
              rw [Nat.pow_add]; ring
          _ = val + n * 2 ^ shift := by rw [this]
      · omega

set_option maxRecDepth 4096 in
theorem and_sign_bit : ∀ b : Nat, b < 128 → (b &&& 64 = 0 ↔ b < 64) := by
  decide

/-- A 64-bit shift-left wraps to the shift of the low `64 - s` bits. -/
theorem shl_mod_two_pow (b s : Nat) (hs : s ≤ 64) :
    (b <<< s) % 2 ^ 64 = (b % 2 ^ (64 - s)) <<< s := by
  rw [Nat.shiftLeft_eq, Nat.shiftLeft_eq,
    show (2:Nat) ^ 64 = 2 ^ (64 - s) * 2 ^ s by rw [← Nat.pow_add]; congr 1; omega,
    Nat.mul_mod_mul_right]

theorem add_shl_mod (r b s : Nat) (hs : s ≤ 64) (hr : r < 2 ^ s) :
    r + (b % 2 ^ (64 - s)) * 2 ^ s = (r + b * 2 ^ s) % 2 ^ 64 := by
  have hsplit : (2:Nat) ^ 64 = 2 ^ (64 - s) * 2 ^ s := by
    rw [← Nat.pow_add]; congr 1; omega
  have hdm : b = 2 ^ (64 - s) * (b / 2 ^ (64 - s)) + b % 2 ^ (64 - s) :=
    (Nat.div_add_mod b _).symm
  have hmod : b % 2 ^ (64 - s) < 2 ^ (64 - s) := Nat.mod_lt _ (Nat.two_pow_pos _)
  have hbound : r + (b % 2 ^ (64 - s)) * 2 ^ s < 2 ^ (64 - s) * 2 ^ s := by
    have h1 : (b % 2 ^ (64 - s)) * 2 ^ s ≤ (2 ^ (64 - s) - 1) * 2 ^ s :=
      Nat.mul_le_mul_right _ (by omega)
    have h2 : ((2:Nat) ^ (64 - s) - 1) * 2 ^ s = 2 ^ (64 - s) * 2 ^ s - 1 * 2 ^ s :=
      Nat.sub_mul _ _ _
    have h3 : (1:Nat) * 2 ^ s ≤ 2 ^ (64 - s) * 2 ^ s :=
      Nat.mul_le_mul_right _ Nat.one_le_two_pow
    omega
  have key : (r + b * 2 ^ s) % (2 ^ (64 - s) * 2 ^ s) =
      r + (b % 2 ^ (64 - s)) * 2 ^ s := by
    conv_lhs => rw [hdm]
    rw [show r + (2 ^ (64 - s) * (b / 2 ^ (64 - s)) + b % 2 ^ (64 - s)) * 2 ^ s
        = (r + (b % 2 ^ (64 - s)) * 2 ^ s) + (b / 2 ^ (64 - s)) *
          (2 ^ (64 - s) * 2 ^ s) by ring,
      Nat.add_mul_mod_self_right]
    exact Nat.mod_eq_of_lt hbound
  rw [hsplit, key]

/-- An integer in `[-M, 0)` reduces mod `M` to itself plus `M`. -/
theorem neg_emod_eq (n M : Int) (h1 : -M ≤ n) (h2 : n < 0) : n % M = n + M := by
  have h3 : n % M = (n + M * 1) % M := by rw [Int.add_mul_emod_self_left]
  rw [h3, Int.mul_one, Int.emod_eq_of_lt (by omega) (by omega)]

/-- Base-128 digit split of an integer mod a power of two. -/
theorem emod_digit_split (n : Int) (k : Nat) :
    n % 2 ^ (k + 7) = n % 128 + 128 * ((n / 128) % 2 ^ k) := by
  have hp : (0:Int) < 2 ^ k := by positivity
  have hq := Int.ediv_add_emod n 128
  have hq2 := Int.ediv_add_emod (n / 128) (2 ^ k)
  have hr1 : (0:Int) ≤ n % 128 := Int.emod_nonneg n (by norm_num)
  have hr2 : n % 128 < 128 := Int.emod_lt_of_pos n (by norm_num)
  have hs1 : (0:Int) ≤ (n / 128) % 2 ^ k := Int.emod_nonneg _ (by positivity)
  have hs2 : (n / 128) % 2 ^ k < 2 ^ k := Int.emod_lt_of_pos _ hp
  have hsplit : (2:Int) ^ (k + 7) = 2 ^ k * 128 := by rw [pow_add]; norm_num
  have hn : n = (n % 128 + 128 * ((n / 128) % 2 ^ k)) +
      (2 ^ k * 128) * ((n / 128) / 2 ^ k) := by linarith
  conv_lhs => rw [hsplit, hn]
  rw [Int.add_mul_emod_self_left,
    Int.emod_eq_of_lt (by omega) (by nlinarith)]

/-- toNat version of the digit split. -/
theorem emod_digit_split_toNat (n : Int) (k : Nat) :
    (n % 2 ^ (k + 7)).toNat = (n % 128).toNat + 128 * ((n / 128) % 2 ^ k).toNat := by
  have h := emod_digit_split n k
  have hr1 : (0:Int) ≤ n % 128 := Int.emod_nonneg n (by norm_num)
  have hs1 : (0:Int) ≤ (n / 128) % 2 ^ k := Int.emod_nonneg _ (by positivity)
  omega

/-- When the encoder continues, the shifted value is strictly smaller in
absolute value. -/
theorem ileb_step_lt (n : Int)
    (h : ¬ ((n / 128 = 0 ∧ (n % 128).toNat < 64) ∨
            (n / 128 = -1 ∧ ¬ ((n % 128).toNat < 64)))) :
    (n / 128).natAbs < n.natAbs := by
  omega

/-- `ileb128_encode` unfolded to arithmetic form. -/
theorem ileb128_encode_unfold (n : Int) :
    ileb128_encode n =
      if (n / 128 = 0 ∧ (n % 128).toNat < 64) ∨
         (n / 128 = -1 ∧ ¬ ((n % 128).toNat < 64))
      then [(n % 128).toNat]
      else ((n % 128).toNat + 128) :: ileb128_encode (n / 128) := by
  have h256 : (0:Int) ≤ n % 256 := Int.emod_nonneg n (by norm_num)
  have hbyte : (n % 256).toNat &&& 0x7f = (n % 128).toNat := by
    rw [Nat.and_pow_two_sub_one_eq_mod _ 7]
    have h1 : (n % 256) % 128 = n % 128 :=
      Int.emod_emod_of_dvd n (by norm_num)
    omega
  have hlt : (n % 128).toNat < 128 := by
    have := Int.emod_lt_of_pos n (show (0:Int) < 128 by norm_num)
    have := Int.emod_nonneg n (show (128:Int) ≠ 0 by norm_num)
    omega
  have h40 := and_sign_bit _ hlt
  have hor : (n % 128).toNat ||| 0x80 = (n % 128).toNat + 128 := by
    have := lor_shl_eq_add ((n % 128).toNat) 1 7 hlt
    simpa using this
  rw [ileb128_encode, Int.fdiv_eq_ediv n (by norm_num), hbyte, hor]
  by_cases hc : (n / 128 = 0 ∧ (n % 128).toNat < 64) ∨
      (n / 128 = -1 ∧ ¬ ((n % 128).toNat < 64))
  · rw [if_pos hc, dif_pos (by tauto)]
  · rw [if_neg hc, dif_neg (by tauto)]

theorem ileb128_encode_ne_nil (n : Int) : ileb128_encode n ≠ [] := by
  rw [ileb128_encode_unfold]; split <;> simp

theorem ileb128_encode_length_pos (n : Int) : 1 ≤ (ileb128_encode n).length := by
  rw [ileb128_encode_unfold]; split <;> simp

/-- The last byte emitted by the encoder is a payload byte, below 128. -/
theorem ileb128_encode_last_lt : ∀ N : Nat, ∀ n : Int, n.natAbs ≤ N →
    (ileb128_encode n).getLastD 0 < 128 := by
  intro N
  induction N with
  | zero =>
    intro n hn
    have hn0 : n = 0 := by omega
    subst hn0
    rw [ileb128_encode_unfold, if_pos (by norm_num),
      show ∀ a d : Nat, [a].getLastD d = a from fun a d => rfl]
    norm_num
  | succ N IH =>
    intro n hn
    rw [ileb128_encode_unfold]
    split
    · rw [show ∀ a d : Nat, [a].getLastD d = a from fun a d => rfl]
      have := Int.emod_lt_of_pos n (show (0:Int) < 128 by norm_num)
      have := Int.emod_nonneg n (show (128:Int) ≠ 0 by norm_num)
      omega
    · rw [List.getLastD_cons]
      have hlt := ileb_step_lt n (by assumption)
      have hIH := IH (n / 128) (by omega)
      rw [List.getLastD_eq_getLast?,
        List.getLast?_eq_getLast _ (ileb128_encode_ne_nil _)] at hIH ⊢
      simpa using hIH


/-- Sign dichotomy of the encoder: a value is encoded in `7L` bits with the
sign bit of the final payload byte matching its sign. -/
theorem ileb128_encode_sign : ∀ N : Nat, ∀ n : Int, n.natAbs ≤ N →
    (0 ≤ n ∧ n < 2 ^ (7 * (ileb128_encode n).length - 1) ∧
      (ileb128_encode n).getLastD 0 < 64) ∨
    (-((2:Int) ^ (7 * (ileb128_encode n).length - 1)) ≤ n ∧ n < 0 ∧
      64 ≤ (ileb128_encode n).getLastD 0) := by
  intro N
  induction N with
  | zero =>
    intro n hn
    have hn0 : n = 0 := by omega
    subst hn0
    left
    rw [ileb128_encode_unfold, if_pos (by norm_num),
      show ∀ a d : Nat, [a].getLastD d = a from fun a d => rfl]
    norm_num
  | succ N IH =>
    intro n hn
    have hr1 : (0:Int) ≤ n % 128 := Int.emod_nonneg n (by norm_num)
    have hr2 : n % 128 < 128 := Int.emod_lt_of_pos n (by norm_num)
    have hq := Int.ediv_add_emod n 128
    rw [ileb128_encode_unfold]
    split
    · rename_i h
      rw [show ∀ a d : Nat, [a].getLastD d = a from fun a d => rfl]
      simp only [List.length_singleton]
      norm_num
      rcases h with ⟨h1, h2⟩ | ⟨h1, h2⟩
      · left; omega
      · right; omega
    · rename_i h
      have hlt := ileb_step_lt n h
      have hIH := IH (n / 128) (by omega)
      have hL' := ileb128_encode_length_pos (n / 128)
      rw [List.length_cons, List.getLastD_cons]
      have hlastD : (ileb128_encode (n / 128)).getLastD ((n % 128).toNat + 128) =
          (ileb128_encode (n / 128)).getLastD 0 := by
        rw [List.getLastD_eq_getLast?, List.getLastD_eq_getLast?,
          List.getLast?_eq_getLast _ (ileb128_encode_ne_nil _)]
        simp
      rw [hlastD]
      have hpow : (2:Int) ^ (7 * ((ileb128_encode (n / 128)).length + 1) - 1) =
          128 * 2 ^ (7 * (ileb128_encode (n / 128)).length - 1) := by
        rw [show 7 * ((ileb128_encode (n / 128)).length + 1) - 1 =
            (7 * (ileb128_encode (n / 128)).length - 1) + 7 by omega, pow_add]
        ring
      rw [hpow]
      rcases hIH with ⟨h1, h2, h3⟩ | ⟨h1, h2, h3⟩
      · left
        refine ⟨by omega, by omega, h3⟩
      · right
        refine ⟨by omega, by omega, h3⟩

/-- A value within `7k − 1` signed bits is encoded in at most `k` bytes. -/
theorem ileb128_encode_length_le : ∀ k : Nat, 1 ≤ k → ∀ n : Int,
    -((2:Int) ^ (7 * k - 1)) ≤ n → n < 2 ^ (7 * k - 1) →
    (ileb128_encode n).length ≤ k := by
  intro k
  induction k with
  | zero => omega
  | succ k IH =>
    intro _ n h1 h2
    rw [ileb128_encode_unfold]
    split
    · simp
    · rename_i h
      rcases Nat.eq_zero_or_pos k with rfl | hk
      · exfalso
        norm_num at h1 h2
        have hq := Int.ediv_add_emod n 128
        have hr1 : (0:Int) ≤ n % 128 := Int.emod_nonneg n (by norm_num)
        have hr2 : n % 128 < 128 := Int.emod_lt_of_pos n (by norm_num)
        omega
      · have hpow : (2:Int) ^ (7 * (k + 1) - 1) = 128 * 2 ^ (7 * k - 1) := by
          rw [show 7 * (k + 1) - 1 = (7 * k - 1) + 7 by omega, pow_add]
          ring
        rw [hpow] at h1 h2
        have := IH hk (n / 128) (by omega) (by omega)
        simp only [List.length_cons]
        omega


/-- Invariant of the decode loop on an encoder output: the loop consumes the
whole encoding (the last byte is the only one with the continue bit clear)
and accumulates the low `7L` bits of the value shifted by `s`, wrapping at 64
bits. -/
theorem ilebLoop_encode : ∀ N : Nat, ∀ n : Int, n.natAbs ≤ N →
    ∀ r s i li lb : Nat,
    7 * (ileb128_encode n).length + s ≤ 70 → r < 2 ^ s →
    ilebLoop (ileb128_encode n) r s i li lb =
      ((r + (n % 2 ^ (7 * (ileb128_encode n).length)).toNat * 2 ^ s) % 2 ^ 64,
       s + 7 * (ileb128_encode n).length,
       i + ((ileb128_encode n).length - 1),
       (ileb128_encode n).getLastD 0) := by
  intro N
  have base : ∀ n : Int, ∀ r s i li lb : Nat, 7 * 1 + s ≤ 70 → r < 2 ^ s →
      ilebLoop [(n % 128).toNat] r s i li lb =
        ((r + (n % 2 ^ (7 * 1)).toNat * 2 ^ s) % 2 ^ 64, s + 7 * 1, i,
         (n % 128).toNat) := by
    intro n r s i li lb hs hr
    have hb : (n % 128).toNat < 128 := by
      have := Int.emod_nonneg n (show (128:Int) ≠ 0 by norm_num)
      have := Int.emod_lt_of_pos n (show (0:Int) < 128 by norm_num)
      omega
    have hdata : (n % 128).toNat &&& 0x7f = (n % 128).toNat := by
      rw [Nat.and_pow_two_sub_one_eq_mod _ 7]; omega
    have hhi : (n % 128).toNat &&& 0x80 = 0 := (and_high_bit _ (by omega)).mpr hb
    have hs64 : s % 64 = s := Nat.mod_eq_of_lt (by omega)
    rw [ilebLoop, hdata, hs64, shl_mod_two_pow _ s (by omega),
      lor_shl_eq_add r _ s hr, add_shl_mod r _ s (by omega) hr, if_pos hhi,
      show (2:Int) ^ (7 * 1) = 128 by norm_num]
  induction N with
  | zero =>
    intro n hn r s i li lb hs hr
    have hn0 : n = 0 := by omega
    subst hn0
    have he : ileb128_encode (0:Int) = [((0:Int) % 128).toNat] := by
      rw [ileb128_encode_unfold, if_pos (by norm_num)]
    rw [he] at hs ⊢
    simp only [List.length_singleton] at hs ⊢
    rw [base 0 r s i li lb (by omega) hr,
      show ∀ a d : Nat, [a].getLastD d = a from fun a d => rfl]
    norm_num
  | succ N IH =>
    intro n hn r s i li lb hs hr
    by_cases hstop : (n / 128 = 0 ∧ (n % 128).toNat < 64) ∨
        (n / 128 = -1 ∧ ¬ ((n % 128).toNat < 64))
    · have he : ileb128_encode n = [(n % 128).toNat] := by
        rw [ileb128_encode_unfold, if_pos hstop]
      rw [he] at hs ⊢
      simp only [List.length_singleton] at hs ⊢
      rw [base n r s i li lb (by omega) hr]
      rw [show ∀ a d : Nat, [a].getLastD d = a from fun a d => rfl]
      norm_num
    · have he : ileb128_encode n =
          ((n % 128).toNat + 128) :: ileb128_encode (n / 128) := by
        rw [ileb128_encode_unfold, if_neg hstop]
      have hlt := ileb_step_lt n hstop
      have hL' := ileb128_encode_length_pos (n / 128)
      have hb : (n % 128).toNat < 128 := by
        have := Int.emod_nonneg n (show (128:Int) ≠ 0 by norm_num)
        have := Int.emod_lt_of_pos n (show (0:Int) < 128 by norm_num)
        omega
      rw [he] at hs ⊢
      simp only [List.length_cons] at hs ⊢
      have hdata : ((n % 128).toNat + 128) &&& 0x7f = (n % 128).toNat := by
        rw [Nat.and_pow_two_sub_one_eq_mod _ 7]; omega
      have hhi : ¬ (((n % 128).toNat + 128) &&& 0x80 = 0) := by
        rw [and_high_bit _ (by omega)]; omega
      have hs64 : s % 64 = s := Nat.mod_eq_of_lt (by omega)
      have hnomod : ((n % 128).toNat <<< s) % 2 ^ 64 = (n % 128).toNat <<< s := by
        apply Nat.mod_eq_of_lt
        rw [Nat.shiftLeft_eq]
        calc (n % 128).toNat * 2 ^ s < 128 * 2 ^ s :=
              (Nat.mul_lt_mul_right (Nat.two_pow_pos s)).mpr hb
          _ = 2 ^ (s + 7) := by rw [Nat.pow_add]; ring
          _ ≤ 2 ^ 64 := Nat.pow_le_pow_right (by norm_num) (by omega)
      have hr' : r + (n % 128).toNat * 2 ^ s < 2 ^ (s + 7) := by
        have h2 : (n % 128).toNat * 2 ^ s ≤ 127 * 2 ^ s :=
          Nat.mul_le_mul_right _ (by omega)
        have h3 : (128:Nat) * 2 ^ s = 2 ^ (s + 7) := by rw [Nat.pow_add]; ring
        have h4 : (0:Nat) < 2 ^ s := Nat.two_pow_pos s
        omega
      rw [ilebLoop, hdata, hs64, hnomod, lor_shl_eq_add r _ s hr, if_neg hhi,
        IH (n / 128) (by omega) _ (s + 7) (i + 1) i ((n % 128).toNat + 128)
          (by omega) hr']
      have hlastD : (ileb128_encode (n / 128)).getLastD ((n % 128).toNat + 128) =
          (ileb128_encode (n / 128)).getLastD 0 := by
        rw [List.getLastD_eq_getLast?, List.getLastD_eq_getLast?,
          List.getLast?_eq_getLast _ (ileb128_encode_ne_nil _)]
        simp
      rw [List.getLastD_cons, hlastD]
      refine congrArg₂ Prod.mk ?_ (congrArg₂ Prod.mk (by omega)
        (congrArg₂ Prod.mk (by omega) rfl))
      -- the accumulated value: split off the low 7 bits of n
      rw [show 7 * ((ileb128_encode (n / 128)).length + 1) =
          7 * (ileb128_encode (n / 128)).length + 7 by ring,
        emod_digit_split_toNat n (7 * (ileb128_encode (n / 128)).length)]
      have hmm : (r + (n % 128).toNat * 2 ^ s) % 2 ^ 64 = r + (n % 128).toNat * 2 ^ s := by
        apply Nat.mod_eq_of_lt
        calc r + (n % 128).toNat * 2 ^ s < 2 ^ (s + 7) := hr'
          _ ≤ 2 ^ 64 := Nat.pow_le_pow_right (by norm_num) (by omega)
      congr 1
      rw [Nat.pow_add]
      ring


/-- `ileb128_decode` in terms of the loop exit state. -/
theorem ileb128_decode_eq (bytes : List Nat) (R S LI LB : Nat)
    (h : ilebLoop bytes 0 0 0 0 0 = (R, S, LI, LB)) :
    ileb128_decode bytes =
      if LB &&& 0x80 ≠ 0 then .error .truncatedLEB
      else .ok (toInt64 (if S < 64 ∧ LB &&& 0x40 ≠ 0
        then R ||| (2 ^ 64 - (1 <<< S)) else R), LI + 1) := by
  simp only [ileb128_decode, h]

/-- Round trip of the signed LEB codec over the `i64` range. -/
theorem ileb128_decode_encode (n : Int) (hlo : -(2:Int) ^ 63 ≤ n)
    (hhi : n < 2 ^ 63) :
    ileb128_decode (ileb128_encode n) =
      .ok (n, (ileb128_encode n).length) := by
  have hL1 := ileb128_encode_length_pos n
  have hL10 : (ileb128_encode n).length ≤ 10 := by
    apply ileb128_encode_length_le 10 (by norm_num) n
    · norm_num
      norm_num at hlo
      omega
    · norm_num
      norm_num at hhi
      omega
  have hlast := ileb128_encode_last_lt n.natAbs n le_rfl
  have hloop := ilebLoop_encode n.natAbs n le_rfl 0 0 0 0 0 (by omega)
    (by norm_num)
  rw [ileb128_decode_eq _ _ _ _ _ hloop]
  simp only [pow_zero, mul_one, zero_add]
  rw [if_neg (by
    have := (and_high_bit _ (by omega)).mpr hlast
    omega)]
  have hsign := ileb128_encode_sign n.natAbs n le_rfl
  rcases hsign with ⟨hp0, hpLt, hpLast⟩ | ⟨hn1, hn2, hnLast⟩
  · -- nonnegative value: no sign extension
    rw [if_neg (by
      intro hc
      have := (and_sign_bit _ hlast).mpr hpLast
      exact hc.2 this)]
    have hmodn : n % (2:Int) ^ (7 * (ileb128_encode n).length) = n := by
      apply Int.emod_eq_of_lt hp0
      calc n < 2 ^ (7 * (ileb128_encode n).length - 1) := hpLt
        _ ≤ 2 ^ (7 * (ileb128_encode n).length) :=
          pow_le_pow_right₀ (by norm_num) (by omega)
    rw [hmodn]
    have hv : n.toNat % 2 ^ 64 = n.toNat := by
      apply Nat.mod_eq_of_lt
      norm_num at hhi
      omega
    rw [hv, toInt64, if_pos (by norm_num at hhi; omega)]
    rw [Int.toNat_of_nonneg hp0]
    exact congrArg Except.ok (congrArg₂ Prod.mk rfl (by omega))
  · -- negative value
    have hb128 : (ileb128_encode n).getLastD 0 &&& 64 ≠ 0 := by
      have := and_sign_bit _ hlast
      omega
    by_cases hlt64 : 7 * (ileb128_encode n).length < 64
    · -- at most nine bytes: the decoder sign-extends
      rw [if_pos ⟨hlt64, hb128⟩]
      have hpowle : (2:Int) ^ (7 * (ileb128_encode n).length - 1) ≤
          2 ^ (7 * (ileb128_encode n).length) :=
        pow_le_pow_right₀ (by norm_num) (by omega)
      have hmodn : n % (2:Int) ^ (7 * (ileb128_encode n).length) =
          n + 2 ^ (7 * (ileb128_encode n).length) :=
        neg_emod_eq n _ (by omega) hn2
      rw [hmodn]
      have hcastP : (((2:Nat) ^ (7 * (ileb128_encode n).length) : Nat) : Int) =
          (2:Int) ^ (7 * (ileb128_encode n).length) := by push_cast; ring
      have hcastA : (((2:Nat) ^ (7 * (ileb128_encode n).length - 1) : Nat) : Int) =
          (2:Int) ^ (7 * (ileb128_encode n).length - 1) := by push_cast; ring
      have hPA : (2:Nat) ^ (7 * (ileb128_encode n).length) =
          2 * 2 ^ (7 * (ileb128_encode n).length - 1) := by
        rw [← Nat.pow_succ']
        congr 1
        omega
      have hP63 : (2:Nat) ^ (7 * (ileb128_encode n).length) ≤ 2 ^ 63 :=
        Nat.pow_le_pow_right (by norm_num) (by omega)
      have hX : (n + (2:Int) ^ (7 * (ileb128_encode n).length)).toNat <
          2 ^ (7 * (ileb128_encode n).length) := by omega
      have hXmod : (n + (2:Int) ^ (7 * (ileb128_encode n).length)).toNat % 2 ^ 64 =
          (n + (2:Int) ^ (7 * (ileb128_encode n).length)).toNat := by
        apply Nat.mod_eq_of_lt
        omega
      rw [hXmod]
      have e1 : (2:Nat) ^ (64 - 7 * (ileb128_encode n).length) *
          2 ^ (7 * (ileb128_encode n).length) = 2 ^ 64 := by
        rw [← Nat.pow_add]
        congr 1
        omega
      have hshl : (1:Nat) <<< (7 * (ileb128_encode n).length) =
          2 ^ (7 * (ileb128_encode n).length) := by
        rw [Nat.shiftLeft_eq, one_mul]
      have hsub : (2:Nat) ^ 64 - 2 ^ (7 * (ileb128_encode n).length) =
          (2 ^ (64 - 7 * (ileb128_encode n).length) - 1) *
            2 ^ (7 * (ileb128_encode n).length) := by
        rw [Nat.sub_mul, one_mul, e1]
      rw [hshl, hsub, ← Nat.shiftLeft_eq,
        lor_shl_eq_add _ _ _ hX, ← hsub]
      have hbig : ¬ ((n + (2:Int) ^ (7 * (ileb128_encode n).length)).toNat +
          ((2:Nat) ^ 64 - 2 ^ (7 * (ileb128_encode n).length)) < 2 ^ 63) := by
        omega
      rw [toInt64, if_neg hbig]
      have : ((((n + (2:Int) ^ (7 * (ileb128_encode n).length)).toNat +
          ((2:Nat) ^ 64 - 2 ^ (7 * (ileb128_encode n).length)) : Nat)) : Int) - 2 ^ 64 = n := by
        push_cast [Nat.cast_sub (show (2:Nat) ^ (7 * (ileb128_encode n).length)
          ≤ 2 ^ 64 by omega)]
        omega
      rw [this]
      exact congrArg Except.ok (congrArg₂ Prod.mk rfl (by omega))
    · -- exactly ten bytes: shift is 70, no sign extension
      have hLL : (ileb128_encode n).length = 10 := by omega
      rw [if_neg (fun hc => hlt64 hc.1), hLL]
      have hval : toInt64 ((n % 2 ^ (7 * 10)).toNat % 2 ^ 64) = n := by
        have hmod : n % (2:Int) ^ (7 * 10) = n + 2 ^ (7 * 10) := by
          apply neg_emod_eq n _ _ hn2
          have h69 : -((2:Int) ^ 63) ≤ n := hlo
          norm_num at h69 ⊢
          omega
        rw [hmod]
        simp only [toInt64]
        have hglo : -((2:Int) ^ 63) ≤ n := hlo
        norm_num at hglo
        split <;> omega
      rw [hval]


/-- The unsigned decode loop never returns a value when every byte has the
continue bit set. -/
theorem ulebDecodeAux_allHigh : ∀ bytes : List Nat, ∀ val shift i : Nat,
    (∀ b ∈ bytes, b &&& 0x80 ≠ 0) →
    ulebDecodeAux bytes val shift i = .error .truncatedLEB := by
  intro bytes
  induction bytes with
  | nil => intro val shift i _; rfl
  | cons b rest IH =>
    intro val shift i hall
    have hb : b &&& 0x80 ≠ 0 := hall b (by simp)
    rw [ulebDecodeAux]
    simp only [if_neg hb]
    exact IH _ _ _ (fun x hx => hall x (by simp [hx]))

/-- On a nonempty all-continue-bit input, the signed decode loop exits with a
last byte whose continue bit is set. -/
theorem ilebLoop_allHigh : ∀ bytes : List Nat, ∀ r s i li lb : Nat,
    bytes ≠ [] → (∀ b ∈ bytes, b &&& 0x80 ≠ 0) →
    (ilebLoop bytes r s i li lb).2.2.2 &&& 0x80 ≠ 0 := by
  intro bytes
  induction bytes with
  | nil => intro r s i li lb h; exact absurd rfl h
  | cons b rest IH =>
    intro r s i li lb _ hall
    have hb : b &&& 0x80 ≠ 0 := hall b (by simp)
    rw [ilebLoop]
    simp only [if_neg hb]
    cases rest with
    | nil => simpa [ilebLoop] using hb
    | cons c rest2 =>
      exact IH _ _ _ _ _ (by simp) (fun x hx => hall x (by simp [hx]))

end LebLemmas

section LebClaims

open leb

/-- C3: LEB round-trip: for every `u64` value `n`,
`uleb128_decode (uleb128_encode n)` returns `Ok (n, |uleb128_encode n|)`, and
for every `i64` value `n`, `ileb128_decode (ileb128_encode n)` returns
`Ok (n, |ileb128_encode n|)`. -/
theorem leb_roundtrip :
    (∀ n : Nat, n < 2 ^ 64 →
      uleb128_decode (uleb128_encode n) = .ok (n, (uleb128_encode n).length)) ∧
    (∀ n : Int, -(2:Int) ^ 63 ≤ n → n < 2 ^ 63 →
      ileb128_decode (ileb128_encode n) = .ok (n, (ileb128_encode n).length)) := by
  constructor
  · intro n hn
    have := ulebDecodeAux_encode n 0 0 0 (by norm_num) (by norm_num)
      (by simpa using hn)
    simpa [uleb128_decode] using this
  · exact ileb128_decode_encode

/-- Witness for C3 at the concrete values 12857 and −127 (the spec's own
test vectors). -/
theorem leb_roundtrip_witness :
    uleb128_decode (uleb128_encode 12857) =
      .ok (12857, (uleb128_encode 12857).length) ∧
    ileb128_decode (ileb128_encode (-127)) =
      .ok (-127, (ileb128_encode (-127)).length) :=
  ⟨leb_roundtrip.1 12857 (by norm_num),
   leb_roundtrip.2 (-127) (by norm_num) (by norm_num)⟩

/-- C4 counterexample: `ileb128_decode` returns `Ok (0, 1)` on the empty
input (all of whose bytes vacuously have the high bit set), and an input
whose final byte has the high bit set but whose first byte does not decodes
successfully in both codecs. -/
theorem leb_truncation_counterexample :
    ileb128_decode [] = .ok (0, 1) ∧
    uleb128_decode [0x00, 0x80] = .ok (0, 1) ∧
    ileb128_decode [0x00, 0x80] = .ok (0, 1) :=
  ⟨rfl, rfl, rfl⟩

/-- C4 (amended): `uleb128_decode` fails with `TruncatedLEB` on every input
all of whose bytes have the high bit set, including the empty input;
`ileb128_decode` fails with `TruncatedLEB` on every nonempty such input, but
returns `Ok (0, 1)` on the empty input. -/
theorem leb_truncation :
    (∀ bytes : List Nat, (∀ b ∈ bytes, b &&& 0x80 ≠ 0) →
      uleb128_decode bytes = .error .truncatedLEB) ∧
    (∀ bytes : List Nat, bytes ≠ [] → (∀ b ∈ bytes, b &&& 0x80 ≠ 0) →
      ileb128_decode bytes = .error .truncatedLEB) ∧
    ileb128_decode [] = .ok (0, 1) := by
  refine ⟨fun bytes hall => ulebDecodeAux_allHigh bytes 0 0 0 hall,
    fun bytes hne hall => ?_, rfl⟩
  have h := ilebLoop_allHigh bytes 0 0 0 0 0 hne hall
  simp only [ileb128_decode, if_pos h]

/-- Witness for C4 (amended) at the concrete input `[0x80]`. -/
theorem leb_truncation_witness :
    uleb128_decode [0x80] = .error .truncatedLEB ∧
    ileb128_decode [0x80] = .error .truncatedLEB :=
  ⟨leb_truncation.1 [0x80] (by decide),
   leb_truncation.2.1 [0x80] (by decide) (by decide)⟩

end LebClaims

/-- One byte of a UTF-8 continuation: `0x80..=0xBF`. -/
def utf8Cont (b : Nat) : Bool := decide (0x80 ≤ b ∧ b ≤ 0xbf)

/-- Validity of a byte list as UTF-8, the check done by
`std::str::from_utf8` (RFC 3629: no overlong forms, no surrogates, max
U+10FFFF). -/
def utf8Valid : List Nat → Bool
  | [] => true
  | b :: rest =>
    if b ≤ 0x7f then utf8Valid rest
    else if 0xc2 ≤ b ∧ b ≤ 0xdf then
      match rest with
      | c1 :: r => utf8Cont c1 && utf8Valid r
      | _ => false
    else if b = 0xe0 then
      match rest with
      | c1 :: c2 :: r => decide (0xa0 ≤ c1 ∧ c1 ≤ 0xbf) && utf8Cont c2 && utf8Valid r
      | _ => false
    else if (0xe1 ≤ b ∧ b ≤ 0xec) ∨ b = 0xee ∨ b = 0xef then
      match rest with
      | c1 :: c2 :: r => utf8Cont c1 && utf8Cont c2 && utf8Valid r
      | _ => false
    else if b = 0xed then
      match rest with
      | c1 :: c2 :: r => decide (0x80 ≤ c1 ∧ c1 ≤ 0x9f) && utf8Cont c2 && utf8Valid r
      | _ => false
    else if b = 0xf0 then
      match rest with
      | c1 :: c2 :: c3 :: r =>
        decide (0x90 ≤ c1 ∧ c1 ≤ 0xbf) && utf8Cont c2 && utf8Cont c3 && utf8Valid r
      | _ => false
    else if 0xf1 ≤ b ∧ b ≤ 0xf3 then
      match rest with
      | c1 :: c2 :: c3 :: r =>
        utf8Cont c1 && utf8Cont c2 && utf8Cont c3 && utf8Valid r
      | _ => false
    else if b = 0xf4 then
      match rest with
      | c1 :: c2 :: c3 :: r =>
        decide (0x80 ≤ c1 ∧ c1 ≤ 0x8f) && utf8Cont c2 && utf8Cont c3 && utf8Valid r
      | _ => false
    else false

/-- Drop leading NUL bytes. -/
def trimNulFront : List Nat → List Nat
  | 0 :: r => trimNulFront r
  | l => l

/-- Rust `trim_matches(char::from(0))` on a valid-UTF-8 byte list: NUL
characters are single bytes, so char-level trimming equals byte-level
trimming of both ends. -/
def trimNul (l : List Nat) : List Nat :=
  (trimNulFront (trimNulFront l).reverse).reverse

namespace macho

/-- `macho::X86Subtype`. -/
inductive X86Subtype where
  | AllX86 | I486OrNewer | I486SXOrNewer | PentiumM5OrNewer | CeleronOrNewer
  | CeleronMobileOrNewer | Pentium3OrNewer | Pentium3MOrNewer
  | Pentium3XEONOrNewer | Pentium4OrNewer | ItaniumOrNewer | Itanium2OrNewer
  | XEONOrNewer | XEONMPOrNewer
  deriving DecidableEq, Repr

/-- `macho::X86Subtype::from`. -/
def X86Subtype.from' (word : Nat) : Option X86Subtype :=
  match word with
  | 0x03 => some .AllX86
  | 0x04 => some .I486OrNewer
  | 0x84 => some .I486SXOrNewer
  | 0x56 => some .PentiumM5OrNewer
  | 0x67 => some .CeleronOrNewer
  | 0x77 => some .CeleronMobileOrNewer
  | 0x08 => some .Pentium3OrNewer
  | 0x18 => some .Pentium3MOrNewer
  | 0x28 => some .Pentium3XEONOrNewer
  | 0x0A => some .Pentium4OrNewer
  | 0x0B => some .ItaniumOrNewer
  | 0x1B => some .Itanium2OrNewer
  | 0x0C => some .XEONOrNewer
  | 0x1C => some .XEONMPOrNewer
  | _ => none

/-- `macho::ArmSubtype`. -/
inductive ArmSubtype where
  | AllArm | ArmA500ARCHOrNewer | ArmA500OrNewer | ArmA440OrNewer
  | ArmM4OrNewer | ArmV4TOrNewer | ArmV6OrNewer | ArmV5TEJOrNewer
  | ArmXSCALEOrNewer | ArmV7OrNewer | ArmV7FOrNewer | ArmV7SOrNewer
  | ArmV7KOrNewer | ArmV8OrNewer | ArmV6MOrNewer | ArmV7MOrNewer
  | ArmV7EMOrNewer
  deriving DecidableEq, Repr

/-- `macho::ArmSubtype::from`. -/
def ArmSubtype.from' (word : Nat) : Option ArmSubtype :=
  match word with
  | 0x00 => some .AllArm
  | 0x01 => some .ArmA500ARCHOrNewer
  | 0x02 => some .ArmA500OrNewer
  | 0x03 => some .ArmA440OrNewer
  | 0x04 => some .ArmM4OrNewer
  | 0x05 => some .ArmV4TOrNewer
  | 0x06 => some .ArmV6OrNewer
  | 0x07 => some .ArmV5TEJOrNewer
  | 0x08 => some .ArmXSCALEOrNewer
  | 0x09 => some .ArmV7OrNewer
  | 0x0A => some .ArmV7FOrNewer
  | 0x0B => some .ArmV7SOrNewer
  | 0x0C => some .ArmV7KOrNewer
  | 0x0D => some .ArmV8OrNewer
  | 0x0E => some .ArmV6MOrNewer
  | 0x0F => some .ArmV7MOrNewer
  | 0x10 => some .ArmV7EMOrNewer
  | _ => none

/-- `macho::CpuType`. -/
inductive CpuType where
  | Vax | Romp | Ns32032 | NS32332 | MC680x0
  | X86 (s : X86Subtype)
  | Mips | Ns32352 | Mc98000 | Hppa
  | Arm (s : ArmSubtype)
  | Mc88000 | Sparc | I860BigEndian | I860LittleEndian | Rs6000 | PowerPC
  deriving DecidableEq, Repr

/-- `macho::CpuType::from`: dispatch on the low byte of `cpu_type`; the x86
and ARM families decode `cpu_subtype` and fail with "bad cpu subtype" when
unknown; an unknown family fails with "bad cpu type". -/
def CpuType.from' (cpu_type cpu_subtype : Nat) : Except Err CpuType :=
  match 0xFF &&& cpu_type with
  | 0x01 => .ok .Vax
  | 0x02 => .ok .Romp
  | 0x04 => .ok .Ns32032
  | 0x05 => .ok .NS32332
  | 0x06 => .ok .MC680x0
  | 0x07 =>
    match X86Subtype.from' cpu_subtype with
    | some s => .ok (.X86 s)
    | none => .error (.badCpuSubtype cpu_subtype)
  | 0x08 => .ok .Mips
  | 0x09 => .ok .Ns32352
  | 0x0A => .ok .Mc98000
  | 0x0B => .ok .Hppa
  | 0x0C =>
    match ArmSubtype.from' cpu_subtype with
    | some s => .ok (.Arm s)
    | none => .error (.badCpuSubtype cpu_subtype)
  | 0x0D => .ok .Mc88000
  | 0x0E => .ok .Sparc
  | 0x0F => .ok .I860BigEndian
  | 0x10 => .ok .I860LittleEndian
  | 0x11 => .ok .Rs6000
  | 0x12 => .ok .PowerPC
  | _ => .error (.badCpuType cpu_type)

/-- `macho::FileType`. -/
inductive FileType where
  | RelocatableObj | DemandPagedExe | FixedVmSharedLib | Core | PreloadedExe
  | DynamicallyBoundSharedLib | DynamicLinkEditor | DynamicallyBoundBundle
  | SharedLibraryStub | CompanionDebugOnly | X8664Kexts | CompositeMacho
  deriving DecidableEq, Repr

/-- `macho::FileType::from`. -/
def FileType.from' (word : Nat) : Option FileType :=
  match word with
  | 0x01 => some .RelocatableObj
  | 0x02 => some .DemandPagedExe
  | 0x03 => some .FixedVmSharedLib
  | 0x04 => some .Core
  | 0x05 => some .PreloadedExe
  | 0x06 => some .DynamicallyBoundSharedLib
  | 0x07 => some .DynamicLinkEditor
  | 0x08 => some .DynamicallyBoundBundle
  | 0x09 => some .SharedLibraryStub
  | 0x0A => some .CompanionDebugOnly
  | 0x0B => some .X8664Kexts
  | 0x0C => some .CompositeMacho
  | _ => none

/-- `macho::RawHeader`: eight raw little-endian 32-bit words. -/
structure RawHeader where
  magic : Nat
  cpu_type : Nat
  cpu_subtype : Nat
  file_type : Nat
  loads_count : Nat
  loads_size : Nat
  flags : Nat
  reserved : Nat
  deriving DecidableEq, Repr

/-- `macho::RawHeader::from`: `transmute_copy` of 32 bytes into the struct,
i.e. eight host-endian (little-endian) `u32` reads.  Its only caller passes
exactly 32 bytes (shorter input already panicked at the caller's slice). -/
def RawHeader.from' (bytes : List Nat) : RawHeader :=
  { magic       := leNat ((bytes.drop 0).take 4)
    cpu_type    := leNat ((bytes.drop 4).take 4)
    cpu_subtype := leNat ((bytes.drop 8).take 4)
    file_type   := leNat ((bytes.drop 12).take 4)
    loads_count := leNat ((bytes.drop 16).take 4)
    loads_size  := leNat ((bytes.drop 20).take 4)
    flags       := leNat ((bytes.drop 24).take 4)
    reserved    := leNat ((bytes.drop 28).take 4) }

/-- `macho::Header`. -/
structure Header where
  cpu_type : CpuType
  is_64_bit : Bool
  file_type : FileType
  loads_count : Nat
  loads_size : Nat
  deriving DecidableEq, Repr

/-- `macho::Header::from_header`: derive the 64-bit flag from `cpu_type`,
cross-check the magic, then decode the typed fields. -/
def Header.from_header (raw : RawHeader) : Except Err Header := do
  let is_64_bit : Bool := 0x01000000 &&& raw.cpu_type != 0
  if raw.magic = 0xfeedface ∧ is_64_bit = false then pure ()
  else if raw.magic = 0xfeedfacf ∧ is_64_bit = true then pure ()
  else .error (.magicMismatch is_64_bit raw.magic)
  let cpu_type ← CpuType.from' raw.cpu_type raw.cpu_subtype
  let file_type ← match FileType.from' raw.file_type with
    | some f => .ok f
    | none => .error (.badFileType raw.file_type)
  .ok { cpu_type, is_64_bit, file_type,
        loads_count := raw.loads_count, loads_size := raw.loads_size }

/-- `macho::Header::from_bytes`. -/
def Header.from_bytes (bytes : List Nat) : Except Err Header :=
  Header.from_header (RawHeader.from' bytes)

/-- `macho::BuildPlatform`. -/
inductive BuildPlatform where
  | MacOS | IOS | TVOS | WatchOS
  | Other (w : Nat)
  deriving DecidableEq, Repr

/-- `macho::BuildPlatform::from`. -/
def BuildPlatform.from' (word : Nat) : BuildPlatform :=
  match word with
  | 1 => .MacOS
  | 2 => .IOS
  | 3 => .TVOS
  | 4 => .WatchOS
  | w => .Other w

/-- `macho::BuildToolVersion`. -/
structure BuildToolVersion where
  tool : Nat
  version : Nat
  deriving DecidableEq, Repr

/-- `macho::Section64`: names are NUL-trimmed byte strings. -/
structure Section64 where
  sectname : List Nat
  segname : List Nat
  addr : Nat
  size : Nat
  offset : Nat
  align : Nat
  reloff : Nat
  nreloc : Nat
  flags : Nat
  reserved1 : Nat
  reserved2 : Nat
  deriving DecidableEq, Repr

/-- `macho::Section64::from`: reads fixed offsets of an 80-byte record; the
two `std::str::from_utf8(...).unwrap()` calls panic on invalid UTF-8. -/
def Section64.from' (bytes : List Nat) : Except Err Section64 :=
  if utf8Valid ((bytes.drop 0).take 16) = false then .error .panicked
  else if utf8Valid ((bytes.drop 16).take 16) = false then .error .panicked
  else .ok {
      sectname  := trimNul ((bytes.drop 0).take 16)
      segname   := trimNul ((bytes.drop 16).take 16)
      addr      := leNat ((bytes.drop 32).take 8)
      size      := leNat ((bytes.drop 40).take 8)
      offset    := leNat ((bytes.drop 48).take 4)
      align     := leNat ((bytes.drop 52).take 4)
      reloff    := leNat ((bytes.drop 56).take 4)
      nreloc    := leNat ((bytes.drop 60).take 4)
      flags     := leNat ((bytes.drop 64).take 4)
      reserved1 := leNat ((bytes.drop 68).take 4)
      reserved2 := leNat ((bytes.drop 72).take 4) }

/-- `macho::Segment64`. -/
structure Segment64 where
  segname : List Nat
  vmaddr : Nat
  vmsize : Nat
  fileoff : Nat
  filesize : Nat
  maxprot : Nat
  initprot : Nat
  nsects : Nat
  flags : Nat
  sections : List Section64
  deriving DecidableEq, Repr

/-- `macho::LoadCommandDetails`. -/
inductive LoadCommandDetails where
  | SymbolTable (symoff nsyms stroff strsize : Nat)
  | Segment64 (seg : macho.Segment64)
  | Uuid (bytes : List Nat)
  | BuildVersion (platform : BuildPlatform) (minos sdk : Nat)
      (tools : List BuildToolVersion)
  | UnrecognizedLoad (tag : Nat)
  deriving DecidableEq, Repr

/-- `macho::LoadCommand`. -/
structure LoadCommand where
  size : Nat
  details : LoadCommandDetails
  deriving DecidableEq, Repr

/-- The `for i in 0..nsects` loop of the segment-64 branch: section `i`
occupies bytes `64 + 80*i ..< 64 + 80*i + 80` of the post-prefix slice. -/
def sectionsLoop (rest : List Nat) : Nat → Nat → Except Err (List Section64)
  | 0, _ => .ok []
  | k + 1, i => do
    let s ← rSlice rest (64 + i * 80) (64 + i * 80 + 80)
    let sec ← Section64.from' s
    let more ← sectionsLoop rest k (i + 1)
    .ok (sec :: more)

/-- The `for i in 0..ntools` loop of the build-version branch. -/
def toolsLoop (tool_bytes : List Nat) : Nat → Nat → Except Err (List BuildToolVersion)
  | 0, _ => .ok []
  | k + 1, i => do
    let tool ← leU32at tool_bytes (8 * i)
    let version ← leU32at tool_bytes (8 * i + 4)
    let more ← toolsLoop tool_bytes k (i + 1)
    .ok ({ tool, version } :: more)

/-- `macho::LoadCommand::from`: read the `(tag, size)` prefix, require the
post-prefix remainder to hold at least `size` further bytes, then dispatch
on the tag.  Returns the command and its declared `size` as the number of
bytes consumed. -/
def LoadCommand.from' (bytes : List Nat) : Except Err (LoadCommand × Nat) := do
  if bytes.length < 8 then .error .ranOutOfBytesLoadCommand
  else
    let ttype := leNat (bytes.take 4)
    let rest1 := bytes.drop 4
    let size := leNat (rest1.take 4)
    let rest := rest1.drop 4
    if rest.length < size then .error .ranOutOfBytesLoadCommand
    else do
      let details ← (match ttype with
        | 0x02 => do
          let symoff ← leU32at rest 0
          let nsyms ← leU32at rest 4
          let stroff ← leU32at rest 8
          let strsize ← leU32at rest 12
          .ok (LoadCommandDetails.SymbolTable symoff nsyms stroff strsize)
        | 0x19 => do
          let nsects ← leU32at rest 56
          let sections ← sectionsLoop rest nsects 0
          let segnameBytes ← rSlice rest 0 16
          if utf8Valid segnameBytes = false then .error .badSegname
          else do
            let vmaddr ← leU64at rest 16
            let vmsize ← leU64at rest 24
            let fileoff ← leU64at rest 32
            let filesize ← leU64at rest 40
            let maxprot ← leU32at rest 48
            let initprot ← leU32at rest 52
            let flags ← leU32at rest 60
            .ok (LoadCommandDetails.Segment64
              { segname := trimNul segnameBytes, vmaddr, vmsize, fileoff,
                filesize, maxprot, initprot, nsects, flags, sections })
        | 0x1b => do
          let u ← rSlice rest 0 16
          .ok (LoadCommandDetails.Uuid u)
        | 0x32 => do
          let pw ← leU32at rest 0
          let platform := BuildPlatform.from' pw
          let minos ← leU32at rest 4
          let sdk ← leU32at rest 8
          let ntools ← leU32at rest 12
          -- `0x18 + ntools * 8` is u32 arithmetic and wraps
          let expected := (0x18 + ntools * 8) % 2 ^ 32
          if size ≠ expected then .error (.badBuildCommandSize size expected)
          else do
            let tool_bytes ← rSliceFrom rest 16
            let tools ← toolsLoop tool_bytes ntools 0
            .ok (LoadCommandDetails.BuildVersion platform minos sdk tools)
        | _ => .ok (LoadCommandDetails.UnrecognizedLoad ttype))
      .ok ({ size, details }, size)

/-- `macho::File`. -/
structure File where
  header : Header
  load_commands : List LoadCommand
  deriving DecidableEq, Repr

/-- The `for _ in 0..header.loads_count` loop of `macho::File::from`:
parse one command at offset `bytesRead` of the full image, advance by the
consumed size. -/
def loadsLoop (bytes : List Nat) : Nat → Nat → Except Err (List LoadCommand × Nat)
  | 0, bytesRead => .ok ([], bytesRead)
  | k + 1, bytesRead => do
    let tail ← rSliceFrom bytes bytesRead
    let (load, read) ← LoadCommand.from' tail
    let (restCmds, final) ← loadsLoop bytes k (bytesRead + read)
    .ok (load :: restCmds, final)

/-- `macho::File::from`: slice the 32-byte header (a panic on shorter
input), parse it, read exactly `loads_count` load commands from offset 32,
and require the bytes consumed by them to equal `loads_size`. -/
def File.from' (bytes : List Nat) : Except Err File := do
  let hdrBytes ← rSlice bytes 0 32
  let header ← Header.from_bytes hdrBytes
  let (load_commands, bytesRead) ← loadsLoop bytes header.loads_count 32
  let loads_size := bytesRead - 32
  if loads_size ≠ header.loads_size then
    .error (.loadsSizeMismatch header.loads_size loads_size)
  else .ok { header, load_commands }

end macho


section MachoLemmas

/-- Success of a bound `Except` computation factors through its first
stage. -/
theorem except_bind_ok {α β : Type} (m : Except Err α) (f : α → Except Err β)
    (b : β) : (m >>= f) = .ok b ↔ ∃ a, m = .ok a ∧ f a = .ok b := by
  cases m with
  | error e => simp [Bind.bind, Except.bind]
  | ok a => simp [Bind.bind, Except.bind]

/-- A parsed load command consumes exactly its declared `size` field. -/
theorem LoadCommand_from_consumed (bytes : List Nat) (c : macho.LoadCommand)
    (k : Nat) (h : macho.LoadCommand.from' bytes = .ok (c, k)) : k = c.size := by
  rw [macho.LoadCommand.from'] at h
  by_cases h8 : bytes.length < 8
  · rw [if_pos h8] at h
    exact absurd h (by simp)
  · rw [if_neg h8] at h
    simp only [] at h
    by_cases hrem : ((bytes.drop 4).drop 4).length < leNat ((bytes.drop 4).take 4)
    · rw [if_pos hrem] at h
      exact absurd h (by simp)
    · rw [if_neg hrem] at h
      rw [except_bind_ok] at h
      obtain ⟨details, _, hf⟩ := h
      have hp := Except.ok.inj hf
      simp only [Prod.mk.injEq] at hp
      obtain ⟨rfl, rfl⟩ := hp
      rfl

/-- The loads loop advances by the sum of the declared sizes of the parsed
commands. -/
theorem loadsLoop_sum : ∀ (n : Nat) (bytes : List Nat) (r : Nat)
    (cmds : List macho.LoadCommand) (final : Nat),
    macho.loadsLoop bytes n r = .ok (cmds, final) →
    final = r + (cmds.map macho.LoadCommand.size).sum := by
  intro n
  induction n with
  | zero =>
    intro bytes r cmds final h
    rw [macho.loadsLoop] at h
    have hinj := Except.ok.inj h
    simp only [Prod.mk.injEq] at hinj
    obtain ⟨rfl, rfl⟩ := hinj
    simp
  | succ k IH =>
    intro bytes r cmds final h
    rw [macho.loadsLoop, except_bind_ok] at h
    obtain ⟨tail, _, h⟩ := h
    rw [except_bind_ok] at h
    obtain ⟨⟨load, read⟩, hload, h⟩ := h
    rw [except_bind_ok] at h
    obtain ⟨⟨restCmds, final'⟩, hrest, h⟩ := h
    have hinj := Except.ok.inj h
    simp only [Prod.mk.injEq] at hinj
    obtain ⟨rfl, rfl⟩ := hinj
    have hsz := LoadCommand_from_consumed tail load read hload
    have hIH := IH bytes (r + read) restCmds final' hrest
    simp only [List.map_cons, List.sum_cons]
    omega

end MachoLemmas

section MachoClaims

/-- C6: `macho::File::from` reads exactly `loads_count` load commands from
offset 32, advancing by each command's declared size (the final offset is
32 plus the sum of the sizes), and — assuming the header and every command
parse — it succeeds iff the sum of the declared sizes equals `loads_size`,
failing with the loads-size-mismatch error otherwise. -/
theorem macho_loads_size_accounting (bytes : List Nat) (hdr : macho.Header)
    (cmds : List macho.LoadCommand) (final : Nat)
    (h32 : 32 ≤ bytes.length)
    (hh : macho.Header.from_bytes (bytes.take 32) = .ok hdr)
    (hl : macho.loadsLoop bytes hdr.loads_count 32 = .ok (cmds, final)) :
    final = 32 + (cmds.map macho.LoadCommand.size).sum ∧
    (macho.File.from' bytes = .ok ⟨hdr, cmds⟩ ↔
      (cmds.map macho.LoadCommand.size).sum = hdr.loads_size) ∧
    ((cmds.map macho.LoadCommand.size).sum ≠ hdr.loads_size →
      macho.File.from' bytes =
        .error (.loadsSizeMismatch hdr.loads_size
          ((cmds.map macho.LoadCommand.size).sum))) := by
  have hsum := loadsLoop_sum hdr.loads_count bytes 32 cmds final hl
  have hslice : rSlice bytes 0 32 = .ok (bytes.take 32) := by
    rw [rSlice, if_pos ⟨by omega, h32⟩]
    simp
  have hunfold : macho.File.from' bytes =
      if (cmds.map macho.LoadCommand.size).sum ≠ hdr.loads_size then
        .error (.loadsSizeMismatch hdr.loads_size
          ((cmds.map macho.LoadCommand.size).sum))
      else .ok ⟨hdr, cmds⟩ := by
    rw [macho.File.from']
    rw [show (do
        let hdrBytes ← rSlice bytes 0 32
        let header ← macho.Header.from_bytes hdrBytes
        let (load_commands, bytesRead) ←
          macho.loadsLoop bytes header.loads_count 32
        let loads_size := bytesRead - 32
        if loads_size ≠ header.loads_size then
          Except.error (.loadsSizeMismatch header.loads_size loads_size)
        else .ok { header, load_commands } : Except Err macho.File) =
      (rSlice bytes 0 32 >>= fun hdrBytes =>
        macho.Header.from_bytes hdrBytes >>= fun header =>
        macho.loadsLoop bytes header.loads_count 32 >>= fun p =>
        if p.2 - 32 ≠ header.loads_size then
          Except.error (.loadsSizeMismatch header.loads_size (p.2 - 32))
        else .ok { header := header, load_commands := p.1 }) from rfl]
    rw [hslice]
    simp only [Bind.bind, Except.bind]
    rw [hh]
    simp only [Except.bind]
    rw [hl]
    simp only [Except.bind]
    rw [show final - 32 = (cmds.map macho.LoadCommand.size).sum by omega]
  refine ⟨hsum, ?_, ?_⟩
  · constructor
    · intro hok
      by_contra hne
      rw [hunfold, if_pos hne] at hok
      exact absurd hok (by simp)
    · intro he
      rw [hunfold, if_neg (by simpa using he)]
  · intro hne
    rw [hunfold, if_pos hne]

/-- The bytes of the C6 witness: the C7 header with `loads_count = 1` and
`loads_size = 16`, one unrecognised 16-byte load command, and 8 trailing
slack bytes (needed because the parser demands `size` bytes after the
8-byte prefix). -/
def c6bytes : List Nat :=
  [0xCF, 0xFA, 0xED, 0xFE, 0x07, 0x00, 0x00, 0x01, 0x03, 0x00, 0x00, 0x00,
   0x02, 0x00, 0x00, 0x00, 0x01, 0x00, 0x00, 0x00, 0x10, 0x00, 0x00, 0x00,
   0, 0, 0, 0, 0, 0, 0, 0] ++
  [0xAA, 0, 0, 0, 16, 0, 0, 0, 1, 2, 3, 4, 5, 6, 7, 8] ++
  [0, 0, 0, 0, 0, 0, 0, 0]

/-- Witness for C6 on a concrete two-command-free image. -/
theorem macho_loads_size_accounting_witness :
    48 = 32 + (([({ size := 16, details := .UnrecognizedLoad 0xAA } :
        macho.LoadCommand)].map macho.LoadCommand.size).sum) ∧
    (macho.File.from' c6bytes =
      .ok ⟨{ cpu_type := .X86 .AllX86, is_64_bit := true,
             file_type := .DemandPagedExe, loads_count := 1, loads_size := 16 },
           [{ size := 16, details := .UnrecognizedLoad 0xAA }]⟩ ↔
      ([({ size := 16, details := .UnrecognizedLoad 0xAA } :
        macho.LoadCommand)].map macho.LoadCommand.size).sum = 16) ∧
    (([({ size := 16, details := .UnrecognizedLoad 0xAA } :
        macho.LoadCommand)].map macho.LoadCommand.size).sum ≠ 16 →
      macho.File.from' c6bytes = .error (.loadsSizeMismatch 16 16)) :=
  macho_loads_size_accounting c6bytes
    { cpu_type := .X86 .AllX86, is_64_bit := true,
      file_type := .DemandPagedExe, loads_count := 1, loads_size := 16 }
    [{ size := 16, details := .UnrecognizedLoad 0xAA }] 48
    (by decide) (by rfl) (by rfl)

/-- The 32-byte header-only image of scenario Mach-O-header-only. -/
def c7bytes : List Nat :=
  [0xCF, 0xFA, 0xED, 0xFE, 0x07, 0x00, 0x00, 0x01, 0x03, 0x00, 0x00, 0x00,
   0x02, 0x00, 0x00, 0x00, 0, 0, 0, 0, 0, 0, 0, 0, 0, 0, 0, 0, 0, 0, 0, 0]

/-- C7: the 32-byte buffer `CF FA ED FE 07 00 00 01 03 00 00 00 02 00 00 00`
followed by sixteen zero bytes parses as a 64-bit x86 (AllX86) header of
file type DemandPagedExe with zero load commands and zero loads-size. -/
theorem macho_header_only :
    macho.File.from' c7bytes =
      .ok { header := { cpu_type := .X86 .AllX86, is_64_bit := true,
                        file_type := .DemandPagedExe, loads_count := 0,
                        loads_size := 0 },
            load_commands := [] } := by rfl

/-- C10: after the 8-byte `(tag, size)` prefix is read, the parser requires
the remaining slice (which excludes the prefix) to hold at least `size`
further bytes; in particular a command whose declared extent ends exactly at
the end of the image fails with the ran-out-of-bytes error. -/
theorem load_command_trailing_bytes_required (bytes : List Nat)
    (h8 : 8 ≤ bytes.length) :
    (bytes.length - 8 < leNat ((bytes.drop 4).take 4) →
      macho.LoadCommand.from' bytes = .error .ranOutOfBytesLoadCommand) ∧
    (bytes.length = leNat ((bytes.drop 4).take 4) →
      macho.LoadCommand.from' bytes = .error .ranOutOfBytesLoadCommand) := by
  have hlen : ((bytes.drop 4).drop 4).length = bytes.length - 8 := by
    simp
  constructor
  · intro hshort
    rw [macho.LoadCommand.from', if_neg (by omega), if_pos (by rw [hlen]; omega)]
  · intro hexact
    rw [macho.LoadCommand.from', if_neg (by omega), if_pos (by rw [hlen]; omega)]

/-- Witness for C10: a 16-byte image holding a single command that declares
`size = 16`, so its extent ends exactly at the end of the image. -/
theorem load_command_trailing_bytes_required_witness :
    (16 - 8 < leNat (([0xAA,0,0,0, 16,0,0,0, 1,2,3,4,5,6,7,8].drop 4).take 4) →
      macho.LoadCommand.from' [0xAA,0,0,0, 16,0,0,0, 1,2,3,4,5,6,7,8] =
        .error .ranOutOfBytesLoadCommand) ∧
    (16 = leNat (([0xAA,0,0,0, 16,0,0,0, 1,2,3,4,5,6,7,8].drop 4).take 4) →
      macho.LoadCommand.from' [0xAA,0,0,0, 16,0,0,0, 1,2,3,4,5,6,7,8] =
        .error .ranOutOfBytesLoadCommand) := by
  have h := load_command_trailing_bytes_required
    [0xAA,0,0,0, 16,0,0,0, 1,2,3,4,5,6,7,8] (by decide)
  simpa using h

end MachoClaims

namespace dwarf

/-- The byte string "__debug_abbrev". -/
def NAME_debug_abbrev : List Nat :=
  [0x5F, 0x5F, 0x64, 0x65, 0x62, 0x75, 0x67, 0x5F, 0x61, 0x62, 0x62, 0x72,
   0x65, 0x76]

/-- The byte string "__debug_info". -/
def NAME_debug_info : List Nat :=
  [0x5F, 0x5F, 0x64, 0x65, 0x62, 0x75, 0x67, 0x5F, 0x69, 0x6E, 0x66, 0x6F]

/-- `dwarf::DIETag`. -/
inductive DIETag where
  | ArrayType | ClassType | EntryPoint | EnumerationType
  | FormalParameter | ImportedDeclaration | Label | LexicalBlock
  | Member | PointerType | ReferenceType | CompileUnit
  | StringType | StructureType | SubroutineType | Typedef
  | UnionType | UnspecifiedParameters | Variant | CommonBlock
  | CommonInclusion | Inheritance | InlinedSubroutine | Module
  | PtrToMemberType | SetType | SubrangeType | WithStmt
  | AccessDeclaration | BaseType | CatchBlock | ConstType
  | Constant | Enumerator | FileType | Friend
  | Namelist | NamelistItem | PackedType | Subprogram
  | TemplateTypeParameter | TemplateValueParameter | ThrownType | TryBlock
  | VariantPart | Variable | VolatileType | DwarfProcedure
  | RestrictType | InterfaceType | Namespace | ImportedModule
  | UnspecifiedType | PartialUnit | ImportedUnit | Condition
  | SharedType | TypeUnit | RvalueReferenceType | TemplateAlias
  | LoUser | HiUser
  deriving Repr

/-- `dwarf::DIETag::from`: unknown values fail with "bad DIE tag". -/
def DIETag.from' (value : Nat) : Except Err DIETag :=
  match value with
  | 0x01 => .ok .ArrayType
  | 0x02 => .ok .ClassType
  | 0x03 => .ok .EntryPoint
  | 0x04 => .ok .EnumerationType
  | 0x05 => .ok .FormalParameter
  | 0x08 => .ok .ImportedDeclaration
  | 0x0a => .ok .Label
  | 0x0b => .ok .LexicalBlock
  | 0x0d => .ok .Member
  | 0x0f => .ok .PointerType
  | 0x10 => .ok .ReferenceType
  | 0x11 => .ok .CompileUnit
  | 0x12 => .ok .StringType
  | 0x13 => .ok .StructureType
  | 0x15 => .ok .SubroutineType
  | 0x16 => .ok .Typedef
  | 0x17 => .ok .UnionType
  | 0x18 => .ok .UnspecifiedParameters
  | 0x19 => .ok .Variant
  | 0x1a => .ok .CommonBlock
  | 0x1b => .ok .CommonInclusion
  | 0x1c => .ok .Inheritance
  | 0x1d => .ok .InlinedSubroutine
  | 0x1e => .ok .Module
  | 0x1f => .ok .PtrToMemberType
  | 0x20 => .ok .SetType
  | 0x21 => .ok .SubrangeType
  | 0x22 => .ok .WithStmt
  | 0x23 => .ok .AccessDeclaration
  | 0x24 => .ok .BaseType
  | 0x25 => .ok .CatchBlock
  | 0x26 => .ok .ConstType
  | 0x27 => .ok .Constant
  | 0x28 => .ok .Enumerator
  | 0x29 => .ok .FileType
  | 0x2a => .ok .Friend
  | 0x2b => .ok .Namelist
  | 0x2c => .ok .NamelistItem
  | 0x2d => .ok .PackedType
  | 0x2e => .ok .Subprogram
  | 0x2f => .ok .TemplateTypeParameter
  | 0x30 => .ok .TemplateValueParameter
  | 0x31 => .ok .ThrownType
  | 0x32 => .ok .TryBlock
  | 0x33 => .ok .VariantPart
  | 0x34 => .ok .Variable
  | 0x35 => .ok .VolatileType
  | 0x36 => .ok .DwarfProcedure
  | 0x37 => .ok .RestrictType
  | 0x38 => .ok .InterfaceType
  | 0x39 => .ok .Namespace
  | 0x3a => .ok .ImportedModule
  | 0x3b => .ok .UnspecifiedType
  | 0x3c => .ok .PartialUnit
  | 0x3d => .ok .ImportedUnit
  | 0x3f => .ok .Condition
  | 0x40 => .ok .SharedType
  | 0x41 => .ok .TypeUnit
  | 0x42 => .ok .RvalueReferenceType
  | 0x43 => .ok .TemplateAlias
  | 0x4080 => .ok .LoUser
  | 0xffff => .ok .HiUser
  | _ => .error (.badDieTag value)

/-- `dwarf::AttrName`; the source's `Type` variant is `Type'` here,
since `Type` is reserved in Lean. -/
inductive AttrName where
  | Sibling | Location | Name | Ordering
  | ByteSize | BitOffset | BitSize | StmtList
  | LowPc | HighPc | Language | Discr
  | DiscrValue | Visibility | Import | StringLength
  | CommonReference | CompDir | ConstValue | ContainingType
  | DefaultValue | Inline | IsOptional | LowerBound
  | Producer | Prototyped | ReturnAddr | StartScope
  | BitStride | UpperBound | AbstractOrigin | Accessibility
  | AddressClass | Artificial | BaseTypes | CallingConvention
  | Count | DataMemberLocation | DeclColumn | DeclFile
  | DeclLine | Declaration | DiscrList | Encoding
  | External | FrameBase | Friend | IdentifierCase
  | MacroInfo | NamelistItem | Priority | Segment
  | Specification | StaticLink | Type' | UseLocation
  | VariableParameter | Virtuality | VtableElemLocation | Allocated
  | Associated | DataLocation | ByteStride | EntryPc
  | UseUTF8 | Extension | Ranges | Trampoline
  | CallColumn | CallFile | CallLine | Description
  | BinaryScale | DecimalScale | Small | DecimalSign
  | DigitCount | PictureString | Mutable | ThreadsScaled
  | Explicit | ObjectPointer | Endianity | Elemental
  | Pure | Recursive | Signature | MainSubprogram
  | DataBitOffset | ConstExpr | EnumClass | LinkageName
  | LoUser | HiUser
  | Unrecognized (n : Nat)
  deriving Repr

/-- `dwarf::AttrName::from`: unknown values are preserved. -/
def AttrName.from' (n : Nat) : AttrName :=
  match n with
  | 0x01 => .Sibling
  | 0x02 => .Location
  | 0x03 => .Name
  | 0x09 => .Ordering
  | 0x0b => .ByteSize
  | 0x0c => .BitOffset
  | 0x0d => .BitSize
  | 0x10 => .StmtList
  | 0x11 => .LowPc
  | 0x12 => .HighPc
  | 0x13 => .Language
  | 0x15 => .Discr
  | 0x16 => .DiscrValue
  | 0x17 => .Visibility
  | 0x18 => .Import
  | 0x19 => .StringLength
  | 0x1a => .CommonReference
  | 0x1b => .CompDir
  | 0x1c => .ConstValue
  | 0x1d => .ContainingType
  | 0x1e => .DefaultValue
  | 0x20 => .Inline
  | 0x21 => .IsOptional
  | 0x22 => .LowerBound
  | 0x25 => .Producer
  | 0x27 => .Prototyped
  | 0x2a => .ReturnAddr
  | 0x2c => .StartScope
  | 0x2e => .BitStride
  | 0x2f => .UpperBound
  | 0x31 => .AbstractOrigin
  | 0x32 => .Accessibility
  | 0x33 => .AddressClass
  | 0x34 => .Artificial
  | 0x35 => .BaseTypes
  | 0x36 => .CallingConvention
  | 0x37 => .Count
  | 0x38 => .DataMemberLocation
  | 0x39 => .DeclColumn
  | 0x3a => .DeclFile
  | 0x3b => .DeclLine
  | 0x3c => .Declaration
  | 0x3d => .DiscrList
  | 0x3e => .Encoding
  | 0x3f => .External
  | 0x40 => .FrameBase
  | 0x41 => .Friend
  | 0x42 => .IdentifierCase
  | 0x43 => .MacroInfo
  | 0x44 => .NamelistItem
  | 0x45 => .Priority
  | 0x46 => .Segment
  | 0x47 => .Specification
  | 0x48 => .StaticLink
  | 0x49 => .Type'
  | 0x4a => .UseLocation
  | 0x4b => .VariableParameter
  | 0x4c => .Virtuality
  | 0x4d => .VtableElemLocation
  | 0x4e => .Allocated
  | 0x4f => .Associated
  | 0x50 => .DataLocation
  | 0x51 => .ByteStride
  | 0x52 => .EntryPc
  | 0x53 => .UseUTF8
  | 0x54 => .Extension
  | 0x55 => .Ranges
  | 0x56 => .Trampoline
  | 0x57 => .CallColumn
  | 0x58 => .CallFile
  | 0x59 => .CallLine
  | 0x5a => .Description
  | 0x5b => .BinaryScale
  | 0x5c => .DecimalScale
  | 0x5d => .Small
  | 0x5e => .DecimalSign
  | 0x5f => .DigitCount
  | 0x60 => .PictureString
  | 0x61 => .Mutable
  | 0x62 => .ThreadsScaled
  | 0x63 => .Explicit
  | 0x64 => .ObjectPointer
  | 0x65 => .Endianity
  | 0x66 => .Elemental
  | 0x67 => .Pure
  | 0x68 => .Recursive
  | 0x69 => .Signature
  | 0x6a => .MainSubprogram
  | 0x6b => .DataBitOffset
  | 0x6c => .ConstExpr
  | 0x6d => .EnumClass
  | 0x6e => .LinkageName
  | 0x2000 => .LoUser
  | 0x3fff => .HiUser
  | m => .Unrecognized m

/-- `dwarf::AttrForm`. -/
inductive AttrForm where
  | Addr | Block2 | Block4 | Data2 | Data4
  | Data8 | Stringg | Block | Block1 | Data1
  | Flag | SData | StrP | Udata | RefAddr
  | Ref1 | Ref2 | Ref4 | Ref8 | RefUdata
  | Indirect | SecOffset | ExprLoc | FlagPresent | RefSig8
  | Unrecognized (n : Nat)
  deriving Repr

/-- `dwarf::AttrForm::from`: unknown values are preserved. -/
def AttrForm.from' (n : Nat) : AttrForm :=
  match n with
  | 0x01 => .Addr
  | 0x03 => .Block2
  | 0x04 => .Block4
  | 0x05 => .Data2
  | 0x06 => .Data4
  | 0x07 => .Data8
  | 0x08 => .Stringg
  | 0x09 => .Block
  | 0x0a => .Block1
  | 0x0b => .Data1
  | 0x0c => .Flag
  | 0x0d => .SData
  | 0x0e => .StrP
  | 0x0f => .Udata
  | 0x10 => .RefAddr
  | 0x11 => .Ref1
  | 0x12 => .Ref2
  | 0x13 => .Ref4
  | 0x14 => .Ref8
  | 0x15 => .RefUdata
  | 0x16 => .Indirect
  | 0x17 => .SecOffset
  | 0x18 => .ExprLoc
  | 0x19 => .FlagPresent
  | 0x20 => .RefSig8
  | m => .Unrecognized m

/-- `dwarf::AttrSpec`. -/
structure AttrSpec where
  name : AttrName
  form : AttrForm
  deriving Repr

/-- `dwarf::AbbrevDecl`. -/
structure AbbrevDecl where
  abbrev_code : Nat
  tag : DIETag
  has_children : Bool
  attr_specs : List AttrSpec
  deriving Repr

/-- `dwarf::AttrValue`. -/
inductive AttrValue where
  | Address (x : Nat)
  | Constant (x : Nat)
  | ExprLoc (bytes : List Nat)
  | Flag (b : Bool)
  | MacPtr (x : Nat)
  | OffsetReference (x : Nat)
  | StrP (x : Nat)
  | Unimplemented (form : AttrForm)
  deriving Repr

/-- `dwarf::DIEAttribute`. -/
structure DIEAttribute where
  name : AttrName
  value : AttrValue
  deriving Repr

/-- `dwarf::DIE`: a tag, the ordered attributes, and the child subtrees. -/
inductive DIE where
  | mk (tag : DIETag) (attrs : List DIEAttribute) (children : List DIE)

/-- The `tag` field of a DIE. -/
def DIE.tag : DIE → DIETag
  | .mk t _ _ => t

/-- The `attrs` field of a DIE. -/
def DIE.attrs : DIE → List DIEAttribute
  | .mk _ a _ => a

/-- The `children` field of a DIE. -/
def DIE.children : DIE → List DIE
  | .mk _ _ c => c

/-- `dwarf::CUHeader`. -/
structure CUHeader where
  unit_length : Nat
  version : Nat
  debug_abbrev_offset : Nat
  address_size : Nat
  deriving Repr

/-- `dwarf::CUHeader::from`: fixed little-endian reads of an 11-byte slice.
Its only caller slices exactly 11 bytes (a shorter section already panicked
at the caller's `&bytes[0..11]`). -/
def CUHeader.from' (bytes : List Nat) : CUHeader :=
  { unit_length := leNat ((bytes.drop 0).take 4)
    version := leNat ((bytes.drop 4).take 2)
    debug_abbrev_offset := leNat ((bytes.drop 6).take 4)
    address_size := bytes.getD 10 0 }

/-- `dwarf::AttrValue::from`: decode one attribute value according to its
form; returns the value and the bytes consumed.  Unhandled forms (including
`Data8`, `Stringg`, `SData`, `Udata`, blocks and `Unrecognized`) take the
wildcard arm: a zero-length `Unimplemented` value. -/
def AttrValue.from' (bytes : List Nat) (form : AttrForm) :
    Except Err (AttrValue × Nat) :=
  match form with
  | .Addr => do
    -- FIXME in source: address size is fixed at 8, not taken from the header
    let s ← rSlice bytes 0 8
    .ok (.Address (leNat s), 8)
  | .Data1 => do
    let b ← rIndex bytes 0
    .ok (.Constant b, 1)
  | .Data2 => do
    let s ← rSlice bytes 0 2
    .ok (.Constant (leNat s), 2)
  | .Data4 => do
    let s ← rSlice bytes 0 4
    .ok (.Constant (leNat s), 4)
  | .ExprLoc => do
    let (len, size) ← leb.uleb128_decode bytes
    let s ← rSlice bytes size (size + len)
    .ok (.ExprLoc s, len + size)
  | .Flag => do
    let b ← rIndex bytes 0
    .ok (.Flag (b != 0), 1)
  | .FlagPresent => .ok (.Flag true, 0)
  | .Ref1 => do
    let b ← rIndex bytes 0
    .ok (.OffsetReference b, 1)
  | .Ref2 => do
    let s ← rSlice bytes 0 2
    .ok (.OffsetReference (leNat s), 2)
  | .Ref4 => do
    let s ← rSlice bytes 0 4
    .ok (.OffsetReference (leNat s), 4)
  | .Ref8 => do
    -- `u32::from_ne_bytes(bytes[0..8].try_into().unwrap())`: the slice has
    -- eight bytes but the array type holds four, so `try_into` always fails
    -- and the `unwrap` panics
    let _ ← rSlice bytes 0 8
    .error .panicked
  | .SecOffset => do
    let s ← rSlice bytes 0 4
    .ok (.MacPtr (leNat s), 4)
  | .StrP => do
    let s ← rSlice bytes 0 4
    .ok (.StrP (leNat s), 4)
  | f => .ok (.Unimplemented f, 0)

/-- The `(name, form)` pair loop of `dwarf::AbbrevDecl::from`, terminated by
a `(0, 0)` pair.  Each iteration consumes at least two bytes, so fuel
`bytes.length + 1` (supplied by the caller) cannot run out. -/
def specLoopFuel (bytes : List Nat) : Nat → Nat → Except Err (List AttrSpec × Nat)
  | 0, _ => .error .fuelExhausted
  | fuel + 1, offset => do
    let t1 ← rSliceFrom bytes offset
    let (name, s1) ← leb.uleb128_decode t1
    let t2 ← rSliceFrom bytes (offset + s1)
    let (form, s2) ← leb.uleb128_decode t2
    if name = 0 ∧ form = 0 then .ok ([], offset + s1 + s2)
    else do
      let (rest, final) ← specLoopFuel bytes fuel (offset + s1 + s2)
      .ok (⟨AttrName.from' name, AttrForm.from' form⟩ :: rest, final)

/-- `dwarf::AbbrevDecl::from`: code, tag, `has_children` byte, then the
attribute-spec pairs; the tag is converted (possibly failing with
"bad DIE tag") after the spec loop, as in the source's struct literal. -/
def AbbrevDecl.from' (bytes : List Nat) : Except Err (AbbrevDecl × Nat) := do
  let (abbrev_code, s0) ← leb.uleb128_decode bytes
  let t ← rSliceFrom bytes s0
  let (tagv, s1) ← leb.uleb128_decode t
  let hc ← rIndex bytes (s0 + s1)
  let has_children ← (match hc with
    | 0 => Except.ok false
    | 1 => Except.ok true
    | x => Except.error (.badChildrenFlag x))
  let (attr_specs, final) ← specLoopFuel bytes (bytes.length + 1) (s0 + s1 + 1)
  let tag ← DIETag.from' tagv
  .ok (⟨abbrev_code, tag, has_children, attr_specs⟩, final)

/-- The attribute loop of `dwarf::DIE::from`: one value per attribute spec,
in declaration order. -/
def attrsLoop (bytes : List Nat) : Nat → List AttrSpec →
    Except Err (List DIEAttribute × Nat)
  | offset, [] => .ok ([], offset)
  | offset, spec :: rest => do
    let t ← rSliceFrom bytes offset
    let (value, size) ← AttrValue.from' t spec.form
    let (attrs, final) ← attrsLoop bytes (offset + size) rest
    .ok (⟨spec.name, value⟩ :: attrs, final)

mutual

/-- `dwarf::DIE::from` with explicit fuel bounding the recursion depth (the
depth is at most twice the input length since every level consumes the
abbreviation-code byte before recursing, so the wrapper's fuel suffices). -/
def dieFromFuel : Nat → List Nat → List AbbrevDecl → Except Err (DIE × Nat)
  | 0, _, _ => .error .fuelExhausted
  | fuel + 1, bytes, abbrev_decls => do
    let (abbr_code, size) ← leb.uleb128_decode bytes
    match abbrev_decls.find? (fun decl => decl.abbrev_code == abbr_code) with
    | none => .error (.noAbbrevMatchingCode abbr_code)
    | some decl => do
      let (attrs, offset) ← attrsLoop bytes size decl.attr_specs
      if decl.has_children then do
        let t ← rSliceFrom bytes offset
        let (children, csize) ← nfromFuel fuel t abbrev_decls 0
        .ok (.mk decl.tag attrs children, offset + csize)
      else
        .ok (.mk decl.tag attrs [], offset)

/-- `dwarf::DIE::nfrom` with fuel: parse a sibling sequence, stopping at
(and consuming) a zero abbreviation code. -/
def nfromFuel : Nat → List Nat → List AbbrevDecl → Nat →
    Except Err (List DIE × Nat)
  | 0, _, _, _ => .error .fuelExhausted
  | fuel + 1, bytes, abbrev_decls, offset => do
    let t ← rSliceFrom bytes offset
    let (code, size) ← leb.uleb128_decode t
    if code = 0 then .ok ([], offset + size)
    else do
      let (die, dsize) ← dieFromFuel fuel t abbrev_decls
      let (dies, final) ← nfromFuel fuel bytes abbrev_decls (offset + dsize)
      .ok (die :: dies, final)

end

/-- `dwarf::DIE::from`. -/
def DIE.from' (bytes : List Nat) (abbrev_decls : List AbbrevDecl) :
    Except Err (DIE × Nat) :=
  dieFromFuel (2 * bytes.length + 2) bytes abbrev_decls

/-- The declaration loop of the `__debug_abbrev` arm of
`dwarf::Section::from`: read declarations until a zero code (which is not
consumed). -/
def abbrevLoopFuel (bytes : List Nat) : Nat → Nat → Except Err (List AbbrevDecl)
  | 0, _ => .error .fuelExhausted
  | fuel + 1, offset => do
    let t ← rSliceFrom bytes offset
    let (code, _) ← leb.uleb128_decode t
    if code = 0 then .ok []
    else do
      let (abbr, size) ← AbbrevDecl.from' t
      let rest ← abbrevLoopFuel bytes fuel (offset + size)
      .ok (abbr :: rest)

/-- `dwarf::Section`.  The `DebugLine` variant's prologue fields are elided:
no arm of `Section::from` ever constructs it. -/
inductive Section where
  | DebugLine
  | DebugInfo (header : CUHeader) (dies : List DIE)
  | DebugAbbrev (abbrevs : List AbbrevDecl)
  | Unrecognized (name : List Nat) (contents : List Nat)

/-- `others.iter().filter_map(DebugAbbrev ⇒ abbrevs).next()` of the
`__debug_info` arm. -/
def firstAbbrevs : List Section → Option (List AbbrevDecl)
  | [] => none
  | .DebugAbbrev a :: _ => some a
  | _ :: rest => firstAbbrevs rest

/-- `dwarf::Section::from`: `__debug_info` slices an 11-byte compile-unit
header, requires an already-parsed `__debug_abbrev` among `others`, and
parses a single DIE; `__debug_abbrev` parses the declaration stream; any
other name is captured raw. -/
def Section.from' (name : List Nat) (bytes : List Nat) (others : List Section) :
    Except Err Section :=
  if name = NAME_debug_info then do
    let hdrBytes ← rSlice bytes 0 11
    let header := CUHeader.from' hdrBytes
    match firstAbbrevs others with
    | none => .error .abbrevNotParsed
    | some debug_abbrev => do
      let t ← rSliceFrom bytes 11
      let (die, _) ← DIE.from' t debug_abbrev
      .ok (.DebugInfo header [die])
  else if name = NAME_debug_abbrev then do
    let abbrevs ← abbrevLoopFuel bytes (bytes.length + 1) 0
    .ok (.DebugAbbrev abbrevs)
  else .ok (.Unrecognized name bytes)

/-- `dwarf::File`. -/
structure File where
  sections : List Section

/-- `segment.sections.iter().enumerate().find(sectname == "__debug_abbrev")`
of `dwarf::File::from`. -/
def findAbbrevSection : List macho.Section64 → Nat →
    Option (Nat × macho.Section64)
  | [], _ => none
  | s :: rest, i =>
    if s.sectname = NAME_debug_abbrev then some (i, s)
    else findAbbrevSection rest (i + 1)

/-- `dwarf::File::macho_section_to_dwarf`: slice the section's extent out of
the image and parse it. -/
def macho_section_to_dwarf (sec : macho.Section64) (bytes : List Nat)
    (others : List Section) : Except Err Section := do
  let content ← rSlice bytes sec.offset (sec.offset + sec.size)
  Section.from' sec.sectname content others

/-- The `for (i, sec) in segment.sections.iter().enumerate()` loop of
`dwarf::File::from`: each section is re-parsed against the current state,
which already holds the pre-parsed `__debug_abbrev` and all earlier
iterations' results. -/
def reparseLoop (bytes : List Nat) : List macho.Section64 → List Section →
    Nat → Except Err (List Section)
  | [], state, _ => .ok state
  | sec :: rest, state, i => do
    let content ← rSlice bytes sec.offset (sec.offset + sec.size)
    let s ← Section.from' sec.sectname content state
    reparseLoop bytes rest (state.set i s) (i + 1)

/-- `dwarf::File::from`: initialise every slot as raw, locate and parse
`__debug_abbrev` first (failing with "missing __debug_abbrev section" when
absent), then re-parse every section in order. -/
def File.from' (segment : macho.Segment64) (bytes : List Nat) :
    Except Err File := do
  let init := segment.sections.map
    (fun sec => Section.Unrecognized sec.sectname [])
  match findAbbrevSection segment.sections 0 with
  | none => .error .missingDebugAbbrev
  | some (i, debug_abbrev) => do
    let parsed ← macho_section_to_dwarf debug_abbrev bytes init
    let sections1 := init.set i parsed
    let final ← reparseLoop bytes segment.sections sections1 0
    .ok ⟨final⟩

end dwarf

section DwarfLemmas

/-- The attribute loop yields exactly one attribute per spec, in order,
carrying the spec's name. -/
theorem attrsLoop_names : ∀ (specs : List dwarf.AttrSpec) (bytes : List Nat)
    (offset : Nat) (attrs : List dwarf.DIEAttribute) (final : Nat),
    dwarf.attrsLoop bytes offset specs = .ok (attrs, final) →
    attrs.map dwarf.DIEAttribute.name = specs.map dwarf.AttrSpec.name := by
  intro specs
  induction specs with
  | nil =>
    intro bytes offset attrs final h
    rw [dwarf.attrsLoop] at h
    have hinj := Except.ok.inj h
    simp only [Prod.mk.injEq] at hinj
    obtain ⟨rfl, rfl⟩ := hinj
    simp
  | cons spec rest IH =>
    intro bytes offset attrs final h
    rw [dwarf.attrsLoop, except_bind_ok] at h
    obtain ⟨t, _, h⟩ := h
    rw [except_bind_ok] at h
    obtain ⟨⟨value, size⟩, _, h⟩ := h
    rw [except_bind_ok] at h
    obtain ⟨⟨attrs', final'⟩, hrest, h⟩ := h
    have hinj := Except.ok.inj h
    simp only [Prod.mk.injEq] at hinj
    obtain ⟨rfl, rfl⟩ := hinj
    simp only [List.map_cons]
    rw [IH bytes (offset + size) attrs' final' hrest]

/-- Well-formedness of a parsed DIE tree with respect to an abbreviation
table: every node carries the tag of some declaration of the table and one
attribute per attribute spec of that declaration, in order. -/
def DIEWellFormed (decls : List dwarf.AbbrevDecl) : dwarf.DIE → Prop
  | .mk tag attrs children =>
    (∃ decl ∈ decls, tag = decl.tag ∧
      attrs.map dwarf.DIEAttribute.name = decl.attr_specs.map dwarf.AttrSpec.name) ∧
    ∀ c ∈ children, DIEWellFormed decls c

/-- The root facts of a successful `dieFromFuel`: the abbreviation code read
from the input resolves in the table and the attribute names follow the
declaration. -/
def DIERootProp (bytes : List Nat) (decls : List dwarf.AbbrevDecl)
    (die : dwarf.DIE) : Prop :=
  ∃ code s decl,
    leb.uleb128_decode bytes = .ok (code, s) ∧
    decls.find? (fun d => d.abbrev_code == code) = some decl ∧
    die.attrs.map dwarf.DIEAttribute.name = decl.attr_specs.map dwarf.AttrSpec.name

/-- Every DIE produced by the fuelled parser satisfies the completeness
invariant, at the root and recursively in all children. -/
theorem dieFromFuel_wellFormed : ∀ fuel : Nat,
    (∀ bytes decls p, dwarf.dieFromFuel fuel bytes decls = .ok p →
      DIERootProp bytes decls p.1 ∧ DIEWellFormed decls p.1) ∧
    (∀ bytes decls off q, dwarf.nfromFuel fuel bytes decls off = .ok q →
      ∀ d ∈ q.1, DIEWellFormed decls d) := by
  intro fuel
  induction fuel with
  | zero =>
    constructor
    · intro bytes decls p h
      exact absurd h (by rw [dwarf.dieFromFuel]; simp)
    · intro bytes decls off q h
      exact absurd h (by rw [dwarf.nfromFuel]; simp)
  | succ fuel IH =>
    constructor
    · intro bytes decls p h
      rw [dwarf.dieFromFuel, except_bind_ok] at h
      obtain ⟨⟨code, s⟩, hcode, h⟩ := h
      simp only [] at h
      cases hfind : decls.find? (fun d => d.abbrev_code == code) with
      | none => rw [hfind] at h; exact absurd h (by simp)
      | some decl =>
        rw [hfind] at h
        rw [except_bind_ok] at h
        obtain ⟨⟨attrs, offset⟩, hattrs, h⟩ := h
        have hdecl : decl ∈ decls := List.mem_of_find?_eq_some hfind
        have hnames := attrsLoop_names decl.attr_specs bytes s attrs offset hattrs
        cases hch : decl.has_children with
        | true =>
          rw [hch] at h
          simp only [if_true] at h
          rw [except_bind_ok] at h
          obtain ⟨t, _, h⟩ := h
          rw [except_bind_ok] at h
          obtain ⟨⟨children, csize⟩, hkids, h⟩ := h
          have hinj := Except.ok.inj h
          have hdie : p.1 = .mk decl.tag attrs children := by
            rw [← hinj]
          refine ⟨⟨code, s, decl, hcode, hfind, by rw [hdie]; exact hnames⟩, ?_⟩
          rw [hdie, DIEWellFormed]
          exact ⟨⟨decl, hdecl, rfl, hnames⟩,
            fun c hc => IH.2 t decls 0 (children, csize) hkids c hc⟩
        | false =>
          rw [hch] at h
          simp only [if_false] at h
          have hinj := Except.ok.inj h
          have hdie : p.1 = .mk decl.tag attrs [] := by
            rw [← hinj]
          refine ⟨⟨code, s, decl, hcode, hfind, by rw [hdie]; exact hnames⟩, ?_⟩
          rw [hdie, DIEWellFormed]
          exact ⟨⟨decl, hdecl, rfl, hnames⟩, by simp⟩
    · intro bytes decls off q h
      rw [dwarf.nfromFuel, except_bind_ok] at h
      obtain ⟨t, _, h⟩ := h
      rw [except_bind_ok] at h
      obtain ⟨⟨code, size⟩, _, h⟩ := h
      simp only [] at h
      by_cases hz : code = 0
      · rw [if_pos hz] at h
        have hinj := Except.ok.inj h
        intro d hd
        rw [← hinj] at hd
        exact absurd hd (by simp)
      · rw [if_neg hz] at h
        rw [except_bind_ok] at h
        obtain ⟨⟨die, dsize⟩, hdie, h⟩ := h
        rw [except_bind_ok] at h
        obtain ⟨⟨dies, final⟩, hdies, h⟩ := h
        have hinj := Except.ok.inj h
        intro d hd
        rw [← hinj] at hd
        simp only [List.mem_cons] at hd
        rcases hd with rfl | hd
        · exact (IH.1 t decls (d, dsize) hdie).2
        · exact IH.2 bytes decls (off + dsize) (dies, final) hdies d hd

end DwarfLemmas

section DwarfClaims

/-- C1: the top-level decoders are not panic-free.  `macho::File::from`
slices `bytes[0..32]` unconditionally, so an image shorter than 32 bytes
panics instead of returning an `Err`; the `__debug_info` arm of
`dwarf::Section::from` slices `bytes[0..11]`, so a section shorter than 11
bytes panics; and the `Ref8` arm of `dwarf::AttrValue::from` feeds an
8-byte slice to `u32::from_ne_bytes` through `try_into().unwrap()`, which
panics even when 8 bytes are available. -/
theorem decoder_panics_on_short_input :
    macho.File.from' [] = .error .panicked ∧
    macho.File.from' [0xCF, 0xFA, 0xED] = .error .panicked ∧
    dwarf.Section.from' dwarf.NAME_debug_info [0, 0, 0] [] = .error .panicked ∧
    dwarf.AttrValue.from' [1, 2, 3, 4, 5, 6, 7, 8] .Ref8 = .error .panicked :=
  ⟨rfl, rfl, rfl, rfl⟩

/-- The abbreviation table of the C2/C8 inputs: code 1, CompileUnit, no
children, with a string-form attribute followed by a one-byte constant. -/
def c2decls : List dwarf.AbbrevDecl :=
  [⟨1, .CompileUnit, false, [⟨.Name, .Stringg⟩, ⟨.ByteSize, .Data1⟩]⟩]

/-- The DIE the parser produces from `[0x01, 0x07]` against `c2decls`. -/
def c2die : dwarf.DIE :=
  .mk .CompileUnit
    [⟨.Name, .Unimplemented .Stringg⟩, ⟨.ByteSize, .Constant 7⟩] []

/-- C2: the parser does NOT fail on an unimplemented form.  Against an
abbreviation whose first attribute has the unimplemented `Stringg` form, the
DIE parser records a zero-length `Unimplemented(Stringg)` value and then
decodes the following attribute at the same (misaligned) offset: the byte
0x07, which in the intended reading belongs to the string payload, is
consumed as the `ByteSize`/`Data1` attribute, and parsing succeeds. -/
theorem unimplemented_form_silently_misaligns :
    dwarf.DIE.from' [0x01, 0x07] c2decls = .ok (c2die, 2) := rfl

/-- The abbreviation table of scenario Abbrev-minimal: code 1, CompileUnit,
has children, a single `(Name, Stringg)` spec. -/
def c5abbrevs : List dwarf.AbbrevDecl :=
  [⟨1, .CompileUnit, true, [⟨.Name, .Stringg⟩]⟩]

/-- The `__debug_info` content of scenario DIE-one-attr: an (all-zero)
11-byte compile-unit header followed by `01 'h' 'i' 00 00`. -/
def c5info : List Nat :=
  [0, 0, 0, 0, 0, 0, 0, 0, 0, 0, 0] ++ [0x01, 0x68, 0x69, 0x00, 0x00]

/-- C5: scenario DIE-one-attr does not succeed on this implementation.  The
`Stringg` attribute is recorded as a zero-length `Unimplemented` value, so
the following string byte 'h' (0x68) is misread as a child abbreviation
code, which resolves to no declaration: parsing fails with
"found no abbrev matching code: 0x68" instead of producing the DIE. -/
theorem die_one_attr_scenario_fails :
    dwarf.Section.from' dwarf.NAME_debug_info c5info
      [.DebugAbbrev c5abbrevs] = .error (.noAbbrevMatchingCode 0x68) := rfl

/-- C8: DIE completeness.  For every DIE produced by `DIE::from`, the
abbreviation code read from the input resolves to a declaration of the
table, the attribute names equal the declaration's spec names in order (so
the counts agree), and the same holds recursively for every child. -/
theorem die_completeness (bytes : List Nat) (decls : List dwarf.AbbrevDecl)
    (die : dwarf.DIE) (sz : Nat)
    (h : dwarf.DIE.from' bytes decls = .ok (die, sz)) :
    (∃ code s decl,
      leb.uleb128_decode bytes = .ok (code, s) ∧
      decls.find? (fun d => d.abbrev_code == code) = some decl ∧
      die.attrs.map dwarf.DIEAttribute.name =
        decl.attr_specs.map dwarf.AttrSpec.name ∧
      die.attrs.length = decl.attr_specs.length) ∧
    DIEWellFormed decls die := by
  have hwf := (dieFromFuel_wellFormed (2 * bytes.length + 2)).1 bytes decls
    (die, sz) h
  obtain ⟨⟨code, s, decl, hcode, hfind, hnames⟩, hwf'⟩ := hwf
  refine ⟨⟨code, s, decl, hcode, hfind, hnames, ?_⟩, hwf'⟩
  have := congrArg List.length hnames
  simpa using this

/-- Witness for C8 on the concrete input `[0x01, 0x07]` against `c2decls`. -/
theorem die_completeness_witness :
    (∃ code s decl,
      leb.uleb128_decode [0x01, 0x07] = .ok (code, s) ∧
      c2decls.find? (fun d => d.abbrev_code == code) = some decl ∧
      c2die.attrs.map dwarf.DIEAttribute.name =
        decl.attr_specs.map dwarf.AttrSpec.name ∧
      c2die.attrs.length = decl.attr_specs.length) ∧
    DIEWellFormed c2decls c2die :=
  die_completeness [0x01, 0x07] c2decls c2die 2 rfl

/-- C9: a segment with no section named `__debug_abbrev` always fails with
the missing-abbrev-section error, regardless of the byte image and of
whether a `__debug_info` section is present. -/
theorem missing_abbrev_section (segment : macho.Segment64) (bytes : List Nat)
    (h : ∀ sec ∈ segment.sections, sec.sectname ≠ dwarf.NAME_debug_abbrev) :
    dwarf.File.from' segment bytes = .error .missingDebugAbbrev := by
  have hfind : ∀ (l : List macho.Section64), (∀ sec ∈ l,
      sec.sectname ≠ dwarf.NAME_debug_abbrev) → ∀ i : Nat,
      dwarf.findAbbrevSection l i = none := by
    intro l
    induction l with
    | nil => intro _ i; rfl
    | cons sec rest IH =>
      intro hl i
      rw [dwarf.findAbbrevSection,
        if_neg (hl sec (by simp))]
      exact IH (fun x hx => hl x (by simp [hx])) (i + 1)
  rw [dwarf.File.from', hfind segment.sections h 0]

/-- Witness for C9: a one-section segment whose only section is named "A". -/
theorem missing_abbrev_section_witness :
    dwarf.File.from'
      { segname := [0x41], vmaddr := 0, vmsize := 0, fileoff := 0,
        filesize := 0, maxprot := 0, initprot := 0, nsects := 1, flags := 0,
        sections := [{ sectname := [0x41], segname := [0x41], addr := 0,
                       size := 0, offset := 0, align := 0, reloff := 0,
                       nreloc := 0, flags := 0, reserved1 := 0,
                       reserved2 := 0 }] } [] =
      .error .missingDebugAbbrev :=
  missing_abbrev_section _ [] (by
    intro sec hsec
    simp only [List.mem_singleton] at hsec
    subst hsec
    decide)

end DwarfClaims